import Mathlib

/-!
# The `dev::Worker` lifecycle (libdevcore/Worker.cpp) and the request-timeout test (test/net.cpp)

`Worker` owns at most one background `std::thread` and an atomic `WorkerState`.
The three public operations `startWorking`, `stopWorking` and `terminate` each
hold the mutex `x_work` for their whole duration, so at any moment there is at
most one caller inside the worker, running concurrently with the background
thread body (the lambda of `startWorking`).

The embedding is a small-step interleaving semantics of these two threads:

* `threadBody` performs one atomic action of the background lambda
  (lines 44-69 together with `workLoop`, lines 108-116);
* `callerStep` performs one atomic action of the operation the caller is in;
* a schedule is a list of `Tid`s, saying which thread moves next; `run`
  executes a schedule.

The virtual hooks `startedWorking`, `doWork`, `doneWorking` are calls that
return; each is recorded as an event in the ghost field `trace`.  Safety
properties are proved for every schedule, termination properties for every
schedule that gives the threads enough turns (a sublist pattern).
-/

namespace dev

/-- The lifecycle states of a worker (`enum class WorkerState`). -/
inductive WorkerState where
  | Starting
  | Started
  | Stopping
  | Stopped
  | Killing
  deriving DecidableEq, Repr

open WorkerState

/-- The operation `std::atomic::compare_exchange_strong`: on the current value `cur`,
with `expected` and `desired`, gives the new value of the atomic, the value left in
`expected`, and the success flag. -/
def compare_exchange_strong (cur expected desired : WorkerState) :
    WorkerState × WorkerState × Bool :=
  if cur = expected then (desired, expected, true) else (cur, cur, false)

/-- The operation `std::atomic::exchange`: the new value of the atomic and the value replaced. -/
def exchange (cur desired : WorkerState) : WorkerState × WorkerState :=
  (desired, cur)

/-- Observable actions of the background thread body, in program order. -/
inductive Event where
  /-- line 49: `m_state.compare_exchange_strong(ex, Started)`, with the value left in `ex` and `ok` -/
  | casStarted (ex : WorkerState) (ok : Bool)
  /-- line 52 -/
  | startedWorking
  /-- line 113: `sleep_for(milliseconds(m_idleWaitMs))` -/
  | idleSleep (ms : Nat)
  /-- line 114 -/
  | doWork
  /-- line 56 -/
  | doneWorking
  /-- line 61: `ex = m_state.exchange(Stopped)`, with the value replaced -/
  | xchgStopped (ex : WorkerState)
  /-- line 64: `m_state.exchange(ex)` -/
  | restored (ex : WorkerState)
  /-- line 68: `sleep_for(milliseconds(20))` -/
  | parkSleep
  deriving DecidableEq, Repr

/-- Program points of the background lambda (lines 44-69) with `workLoop` (lines 108-116)
inlined; the number is the source line of the next action. -/
inductive BodyPc where
  /-- `while (m_state != WorkerState::Killing)` -/
  | L46
  /-- `WorkerState ex = Starting; m_state.compare_exchange_strong(ex, Started)` -/
  | L49
  /-- `startedWorking()` -/
  | L52
  /-- workLoop: `while (m_state == WorkerState::Started)` -/
  | L110
  /-- workLoop: `if (m_idleWaitMs) sleep_for(...)` -/
  | L112
  /-- workLoop: `doWork()` -/
  | L114
  /-- `doneWorking()` -/
  | L56
  /-- `ex = m_state.exchange(WorkerState::Stopped)` -/
  | L61
  /-- `if (ex == Killing || ex == Starting) m_state.exchange(ex)` -/
  | L63
  /-- `while (m_state == WorkerState::Stopped) sleep_for(20ms)` -/
  | L67
  /-- the lambda has returned; the thread is joinable -/
  | exited
  deriving DecidableEq, Repr

/-- The `std::thread` held in `m_work`: a ghost identity, its program point and its local `ex`. -/
structure Thread where
  tid : Nat
  pc : BodyPc
  ex : WorkerState
  deriving DecidableEq, Repr

/-- The data members of `Worker` that the lifecycle code touches, and ghost instrumentation:
`trace` (the body's actions so far), `spawned` (threads created so far) and
`polls` (20 microsecond sleeps taken by callers so far). -/
structure Worker where
  m_idleWaitMs : Nat
  m_state : WorkerState
  m_work : Option Thread
  trace : List Event
  spawned : Nat
  polls : Nat
  deriving DecidableEq, Repr

/-- One atomic action of the background thread (no action when there is no thread or it
has exited). -/
def threadBody (w : Worker) : Worker :=
  match w.m_work with
  | none => w
  | some t =>
    match t.pc with
    | .L46 =>
      if w.m_state ≠ Killing then { w with m_work := some { t with pc := .L49 } }
      else { w with m_work := some { t with pc := .exited } }
    | .L49 =>
      let r := compare_exchange_strong w.m_state Starting Started
      { w with m_state := r.1, m_work := some { t with pc := .L52, ex := r.2.1 },
               trace := w.trace ++ [.casStarted r.2.1 r.2.2] }
    | .L52 =>
      { w with m_work := some { t with pc := .L110 }, trace := w.trace ++ [.startedWorking] }
    | .L110 =>
      if w.m_state = Started then { w with m_work := some { t with pc := .L112 } }
      else { w with m_work := some { t with pc := .L56 } }
    | .L112 =>
      if w.m_idleWaitMs ≠ 0 then
        { w with m_work := some { t with pc := .L114 },
                 trace := w.trace ++ [.idleSleep w.m_idleWaitMs] }
      else { w with m_work := some { t with pc := .L114 } }
    | .L114 =>
      { w with m_work := some { t with pc := .L110 }, trace := w.trace ++ [.doWork] }
    | .L56 =>
      { w with m_work := some { t with pc := .L61 }, trace := w.trace ++ [.doneWorking] }
    | .L61 =>
      let r := exchange w.m_state Stopped
      { w with m_state := r.1, m_work := some { t with pc := .L63, ex := r.2 },
               trace := w.trace ++ [.xchgStopped r.2] }
    | .L63 =>
      if t.ex = Killing ∨ t.ex = Starting then
        { w with m_state := (exchange w.m_state t.ex).1, m_work := some { t with pc := .L67 },
                 trace := w.trace ++ [.restored t.ex] }
      else { w with m_work := some { t with pc := .L67 } }
    | .L67 =>
      if w.m_state = Stopped then { w with trace := w.trace ++ [.parkSleep] }
      else { w with m_work := some { t with pc := .L46 } }
    | .exited => w

/-- Program points of the caller inside `startWorking` (S), `stopWorking` (P) and
`terminate` (T); the number is the source line of the next action. -/
inductive CallerPc where
  /-- startWorking: `if (m_work)` -/
  | S34
  /-- startWorking: `ex = Stopped; m_state.compare_exchange_strong(ex, Starting)` -/
  | S37
  /-- startWorking: `m_state = WorkerState::Starting` -/
  | S41
  /-- startWorking: `m_work.reset(new thread(...))` -/
  | S42
  /-- startWorking: `while (m_state != Started) sleep_for(20us)` -/
  | S74
  /-- stopWorking: `if (m_work)` -/
  | P82
  /-- stopWorking: `ex = Started; m_state.compare_exchange_strong(ex, Stopping)` -/
  | P86
  /-- stopWorking: `while (m_state != Stopped) sleep_for(20us)` -/
  | P89
  /-- terminate: `if (m_work)` -/
  | T98
  /-- terminate: `m_state.exchange(WorkerState::Killing)` -/
  | T101
  /-- terminate: `m_work->join()` -/
  | T103
  /-- terminate: `m_work.reset()` -/
  | T104
  /-- the operation has returned and released `x_work` -/
  | returned
  deriving DecidableEq, Repr

/-- A worker together with the program point of the caller currently inside it. -/
structure Config where
  w : Worker
  pc : CallerPc
  deriving DecidableEq, Repr

/-- One atomic action of the caller. -/
def callerStep (c : Config) : Config :=
  let w := c.w
  match c.pc with
  -- Worker::startWorking
  | .S34 => if w.m_work.isSome then { c with pc := .S37 } else { c with pc := .S41 }
  | .S37 =>
    { w := { w with m_state := (compare_exchange_strong w.m_state Stopped Starting).1 },
      pc := .S74 }
  | .S41 => { w := { w with m_state := Starting }, pc := .S42 }
  | .S42 =>
    { w := { w with m_work := some { tid := w.spawned, pc := .L46, ex := Starting },
                    spawned := w.spawned + 1 },
      pc := .S74 }
  | .S74 =>
    if w.m_state ≠ Started then { c with w := { w with polls := w.polls + 1 } }
    else { c with pc := .returned }
  -- Worker::stopWorking
  | .P82 => if w.m_work.isSome then { c with pc := .P86 } else { c with pc := .returned }
  | .P86 =>
    { w := { w with m_state := (compare_exchange_strong w.m_state Started Stopping).1 },
      pc := .P89 }
  | .P89 =>
    if w.m_state ≠ Stopped then { c with w := { w with polls := w.polls + 1 } }
    else { c with pc := .returned }
  -- Worker::terminate
  | .T98 => if w.m_work.isSome then { c with pc := .T101 } else { c with pc := .returned }
  | .T101 => { w := { w with m_state := (exchange w.m_state Killing).1 }, pc := .T103 }
  | .T103 =>
    match w.m_work with
    | some t => if t.pc = .exited then { c with pc := .T104 } else c
    | none => c
  | .T104 => { w := { w with m_work := none }, pc := .returned }
  | .returned => c

/-- The two threads of the model. -/
inductive Tid where
  | caller
  | body
  deriving DecidableEq, Repr

/-- One step of the thread chosen by the scheduler. -/
def step (c : Config) (t : Tid) : Config :=
  match t with
  | .caller => callerStep c
  | .body => { c with w := threadBody c.w }

/-- Execution of a schedule. -/
def run (s : List Tid) (c : Config) : Config :=
  s.foldl step c

/-- Entry of `Worker::startWorking`. -/
def startWorking (w : Worker) : Config := { w := w, pc := .S34 }

/-- Entry of `Worker::stopWorking`. -/
def stopWorking (w : Worker) : Config := { w := w, pc := .P82 }

/-- Entry of `Worker::terminate`. -/
def terminate (w : Worker) : Config := { w := w, pc := .T98 }

/-- A freshly constructed worker: no thread yet; `m_state` holds its initial value. -/
def Worker.fresh (idle : Nat) (init : WorkerState) : Worker :=
  { m_idleWaitMs := idle, m_state := init, m_work := none, trace := [], spawned := 0, polls := 0 }

/-! ## Quiescent workers and the invariants of the three operations -/

/-- The body has set `Started` (line 49) and has not yet left `workLoop`. -/
def Thread.running (t : Thread) : Prop :=
  t.pc = .L52 ∨ t.pc = .L110 ∨ t.pc = .L112 ∨ t.pc = .L114

/-- The body has stored `Stopped` (line 61), had nothing to write back, and is at or
just before the parking loop of line 67. -/
def Thread.parked (t : Thread) : Prop :=
  t.pc = .L67 ∨ (t.pc = .L63 ∧ t.ex ≠ Killing ∧ t.ex ≠ Starting)

instance (t : Thread) : Decidable t.running := by unfold Thread.running; infer_instance

instance (t : Thread) : Decidable t.parked := by unfold Thread.parked; infer_instance

/-- A worker between two operations: no background context; or a context with state
`Started`, the body being between line 49 and the end of `workLoop`; or a context with state
`Stopped`, the body being parked. -/
def Worker.quiescent (w : Worker) : Prop :=
  match w.m_work with
  | none => True
  | some t => (w.m_state = Started ∧ t.running) ∨ (w.m_state = Stopped ∧ t.parked)

instance (w : Worker) : Decidable w.quiescent := by
  unfold Worker.quiescent; cases w.m_work <;> infer_instance

/-- No thread was created since `n0` were, and `m_work` holds the thread `k0` (or none). -/
def sameCtx (k0 : Option Nat) (n0 : Nat) (w : Worker) : Prop :=
  w.spawned = n0 ∧ w.m_work.map Thread.tid = k0

/-- The context `startWorking` ends with: the thread `k0` when there was one, else one
newly created thread, the `n0`-th. -/
def startCtx (k0 : Option Nat) (n0 : Nat) (w : Worker) : Prop :=
  match k0 with
  | none => w.spawned = n0 + 1 ∧ w.m_work.map Thread.tid = some n0
  | some k => w.spawned = n0 ∧ w.m_work.map Thread.tid = some k

/-- Number of successful `Starting` to `Started` transitions (line 49) in a trace. -/
def nCasOk (tr : List Event) : Nat := tr.count (.casStarted Starting true)

/-- Number of `startedWorking` calls in a trace. -/
def nStarted (tr : List Event) : Nat := tr.count .startedWorking

/-- Number of `doneWorking` calls in a trace. -/
def nDone (tr : List Event) : Nat := tr.count .doneWorking

/-- Number of `doWork` calls in a trace. -/
def nWork (tr : List Event) : Nat := tr.count .doWork

/-- Invariant of `startWorking` called on a quiescent worker that held thread `k0` (or none),
had created `n0` threads and had made `a0` successful transitions to `Started`; `a1` is `a0`
when the worker was already started and `a0 + 1` otherwise. -/
def InvStart (k0 : Option Nat) (n0 a0 a1 : Nat) (c : Config) : Prop :=
  match c.pc with
  | .S34 | .S37 =>
    sameCtx k0 n0 c.w ∧ nCasOk c.w.trace = a0 ∧ (c.pc = .S37 → c.w.m_work.isSome) ∧
    match c.w.m_work with
    | none => a1 = a0 + 1
    | some t =>
      (c.w.m_state = Started ∧ t.running ∧ a1 = a0) ∨
      (c.w.m_state = Stopped ∧ t.parked ∧ a1 = a0 + 1)
  | .S41 => sameCtx k0 n0 c.w ∧ nCasOk c.w.trace = a0 ∧ a1 = a0 + 1 ∧ c.w.m_work = none
  | .S42 =>
    sameCtx k0 n0 c.w ∧ nCasOk c.w.trace = a0 ∧ a1 = a0 + 1 ∧ c.w.m_work = none ∧
    c.w.m_state = Starting
  | .S74 =>
    startCtx k0 n0 c.w ∧
    match c.w.m_work with
    | none => False
    | some t =>
      (c.w.m_state = Starting ∧ (t.parked ∨ t.pc = .L46 ∨ t.pc = .L49) ∧
        nCasOk c.w.trace = a0 ∧ a1 = a0 + 1) ∨
      (c.w.m_state = Started ∧ t.running ∧ nCasOk c.w.trace = a1)
  | .returned =>
    startCtx k0 n0 c.w ∧
    match c.w.m_work with
    | none => False
    | some t => c.w.m_state = Started ∧ t.running ∧ nCasOk c.w.trace = a1
  | _ => False

/-- Progress measure of `startWorking`. -/
def rankStart (c : Config) : Nat :=
  match c.pc with
  | .S34 => 0
  | .S37 => 1
  | .S41 => 1
  | .S42 => 2
  | .S74 =>
    if c.w.m_state = Started then 7
    else
      match c.w.m_work with
      | none => 3
      | some t =>
        match t.pc with
        | .L67 => 4
        | .L46 => 5
        | .L49 => 6
        | _ => 3
  | .returned => 8
  | _ => 0

/-- Turns that suffice for `startWorking` to return: three of the caller (lines 34-42),
four of the body (lines 63, 67, 46, 49), one of the caller (line 74). -/
def patStart : List Tid :=
  [.caller, .caller, .caller, .body, .body, .body, .body, .caller]

/-- The successful transitions to `Started` that `startWorking` adds: none on a started
worker, one otherwise. -/
def startGoal (w : Worker) : Nat :=
  nCasOk w.trace + (if w.m_work.isSome ∧ w.m_state = Started then 0 else 1)

/-- Invariant of `stopWorking` called on a quiescent worker that held thread `k0`, had
created `n0` threads and had seen `d0` calls of `doneWorking`; `b0` tells whether its state
was `Started` (else it was `Stopped`). -/
def InvStop (k0 : Option Nat) (n0 d0 : Nat) (b0 : Bool) (c : Config) : Prop :=
  sameCtx k0 n0 c.w ∧
  match c.w.m_work with
  | none => False
  | some t =>
    if b0 then
      match c.pc with
      | .P82 | .P86 => c.w.m_state = Started ∧ t.running ∧ nDone c.w.trace = d0
      | .P89 =>
        (c.w.m_state = Stopping ∧ (t.running ∨ t.pc = .L56) ∧ nDone c.w.trace = d0) ∨
        (c.w.m_state = Stopping ∧ t.pc = .L61 ∧ nDone c.w.trace = d0 + 1) ∨
        (c.w.m_state = Stopped ∧ (t.pc = .L63 ∨ t.pc = .L67) ∧ t.ex = Stopping ∧
          nDone c.w.trace = d0 + 1)
      | .returned =>
        c.w.m_state = Stopped ∧ (t.pc = .L63 ∨ t.pc = .L67) ∧ t.ex = Stopping ∧
        nDone c.w.trace = d0 + 1
      | _ => False
    else
      (c.pc = .P82 ∨ c.pc = .P86 ∨ c.pc = .P89 ∨ c.pc = .returned) ∧
      c.w.m_state = Stopped ∧ t.parked ∧ nDone c.w.trace = d0

/-- Progress measure of `stopWorking` on a started worker. -/
def rankStop (c : Config) : Nat :=
  match c.pc with
  | .P82 => 0
  | .P86 => 1
  | .P89 =>
    if c.w.m_state = Stopped then 7
    else
      match c.w.m_work with
      | none => 2
      | some t =>
        match t.pc with
        | .L114 => 3
        | .L52 => 3
        | .L110 => 4
        | .L56 => 5
        | .L61 => 6
        | _ => 2
  | .returned => 8
  | _ => 0

/-- Turns that suffice for `stopWorking` to return on a started worker: two of the caller
(lines 82-86), five of the body (lines 112, 114, 110, 56, 61), one of the caller (line 89). -/
def patStop : List Tid :=
  [.caller, .caller, .body, .body, .body, .body, .body, .caller]

/-- Progress measure of `stopWorking` on a stopped worker. -/
def rankStopped (c : Config) : Nat :=
  match c.pc with
  | .P82 => 0
  | .P86 => 1
  | .P89 => 2
  | .returned => 3
  | _ => 0

/-- Invariant of `terminate` called on a quiescent worker that held thread `k0` and had
created `n0` threads. -/
def InvTerm (k0 : Option Nat) (n0 : Nat) (c : Config) : Prop :=
  match c.pc with
  | .T98 | .T101 => sameCtx k0 n0 c.w ∧ c.w.m_work.isSome ∧ c.w.quiescent
  | .T103 =>
    sameCtx k0 n0 c.w ∧
    match c.w.m_work with
    | none => False
    | some t =>
      (c.w.m_state = Killing ∧ t.pc ≠ .L49 ∧ (t.pc = .L63 → t.ex ≠ Starting)) ∨
      (c.w.m_state = Stopped ∧ t.pc = .L63 ∧ t.ex = Killing)
  | .T104 =>
    sameCtx k0 n0 c.w ∧ c.w.m_state = Killing ∧
    match c.w.m_work with
    | none => False
    | some t => t.pc = .exited
  | .returned => c.w.spawned = n0 ∧ c.w.m_work = none ∧ c.w.m_state = Killing
  | _ => False

/-- Progress measure of `terminate`. -/
def rankTerm (c : Config) : Nat :=
  match c.pc with
  | .T98 => 0
  | .T101 => 1
  | .T103 =>
    match c.w.m_work with
    | none => 2
    | some t =>
      match t.pc with
      | .L114 => 3
      | .L52 => 3
      | .L110 => 4
      | .L56 => 5
      | .L61 => 6
      | .L63 => 7
      | .L67 => 8
      | .L46 => 9
      | .exited => 10
      | _ => 2
  | .T104 => 11
  | .returned => 12
  | _ => 0

/-- Turns that suffice for `terminate` to return: two of the caller (lines 98-101), eight of
the body (lines 112, 114, 110, 56, 61, 63, 67, 46), two of the caller (lines 103-104). -/
def patTerm : List Tid :=
  [.caller, .caller, .body, .body, .body, .body, .body, .body, .body, .body, .caller, .caller]

/-- A worker as `startWorking` leaves it when called on a fresh worker and scheduled by
`patStart`: thread 0 is inside `workLoop`, the state is `Started`. -/
def Worker.started : Worker := (run patStart (startWorking (Worker.fresh 0 Stopped))).w

/-- A worker as `stopWorking` leaves it when called on `Worker.started` and scheduled by
`patStop`: thread 0 is parked, the state is `Stopped`. -/
def Worker.stopped : Worker := (run patStop (stopWorking Worker.started)).w

/-- Calls of `startedWorking` made so far, plus one when the body is at line 52 and so
about to make one. -/
def due (w : Worker) : Nat :=
  nStarted w.trace +
    match w.m_work with
    | none => 0
    | some t => if t.pc = .L52 then 1 else 0

/-- Invariant of `startWorking` called on a worker `w0` that is already started: the caller
is inside `startWorking`, the state is `Started`, the same body is running, and nothing but
the body's own progress inside its current cycle has changed. -/
def InvIdem (w0 : Worker) (c : Config) : Prop :=
  (c.pc = .S34 ∨ c.pc = .S37 ∨ c.pc = .S74 ∨ c.pc = .returned) ∧
  c.w.m_state = Started ∧ c.w.spawned = w0.spawned ∧ c.w.polls = w0.polls ∧
  nDone c.w.trace = nDone w0.trace ∧ nCasOk c.w.trace = nCasOk w0.trace ∧ due c.w = due w0 ∧
  ∃ t, c.w.m_work = some t ∧ some t.tid = w0.m_work.map Thread.tid ∧ t.running

/-- Progress measure of `startWorking` on a started worker. -/
def rankIdem (c : Config) : Nat :=
  match c.pc with
  | .S34 => 0
  | .S37 => 1
  | .S74 => 2
  | .returned => 3
  | _ => 0

/-! ## workLoop on its own -/

/-- What a call of `workLoop` has done: the events it produced, the values of `m_state` its
loop test has read (ghost), and whether it has returned. -/
structure LoopRun where
  events : List Event
  observed : List WorkerState
  returned : Bool
  deriving DecidableEq, Repr

/-- One iteration of the loop body of `workLoop` (lines 112-114): the idle sleep, taken only
when `m_idleWaitMs` is non-zero, then `doWork`. -/
def workIteration (m_idleWaitMs : Nat) : List Event :=
  (if m_idleWaitMs ≠ 0 then [Event.idleSleep m_idleWaitMs] else []) ++ [Event.doWork]

/-- `Worker::workLoop` (lines 108-116), run against the values that successive reads of
`m_state` at the loop test (line 110) give; when the reads run out the loop is still running. -/
def workLoop (m_idleWaitMs : Nat) : List WorkerState → LoopRun
  | [] => { events := [], observed := [], returned := false }
  | st :: reads =>
    if st = Started then
      let r := workLoop m_idleWaitMs reads
      { events := workIteration m_idleWaitMs ++ r.events,
        observed := st :: r.observed,
        returned := r.returned }
    else { events := [], observed := [st], returned := true }

/-! ## The order of actions in a cycle of the background body -/

/-- Where a trace of the body stands in the cycle, as the cycle is described: a
compare-and-swap to `Started`, `startedWorking`, the work loop, `doneWorking`, the exchange
to `Stopped`, parking. -/
inductive Phase where
  /-- no cycle has begun -/
  | fresh
  /-- the compare-and-swap is done, `startedWorking` comes next -/
  | swapped
  /-- inside the work loop, between iterations -/
  | working
  /-- inside the work loop, the idle sleep is done, `doWork` comes next -/
  | slept
  /-- `doneWorking` is done, the exchange to `Stopped` comes next -/
  | finished
  /-- the exchange to `Stopped` is done -/
  | exchanged
  /-- a replaced value was written back, or the body has slept in the parking loop -/
  | parked
  deriving DecidableEq, Repr

/-- The action that may follow in the cycle: `none` when the event is out of order. -/
def Phase.next (idle : Nat) : Phase → Event → Option Phase
  | .fresh, .casStarted _ _ => some .swapped
  | .exchanged, .casStarted _ _ => some .swapped
  | .parked, .casStarted _ _ => some .swapped
  | .swapped, .startedWorking => some .working
  | .working, .idleSleep ms => if idle ≠ 0 ∧ ms = idle then some .slept else none
  | .working, .doWork => if idle = 0 then some .working else none
  | .slept, .doWork => some .working
  | .working, .doneWorking => some .finished
  | .finished, .xchgStopped _ => some .exchanged
  | .exchanged, .restored ex => if ex = Killing ∨ ex = Starting then some .parked else none
  | .exchanged, .parkSleep => some .parked
  | .parked, .parkSleep => some .parked
  | _, _ => none

/-- The phase a trace ends in when read from phase `q`; `none` when some event is out of
order. -/
def phaseFrom (idle : Nat) (q : Phase) (tr : List Event) : Option Phase :=
  tr.foldl (fun o e => o.bind fun p => Phase.next idle p e) (some q)

/-- The program points the body can be at when its trace ends in a given phase. -/
def Phase.holdsAt (idle : Nat) : Phase → Option Thread → Bool
  | .fresh, none => true
  | .exchanged, none => true
  | .parked, none => true
  | .fresh, some t => t.pc = .L46 ∨ t.pc = .L49 ∨ t.pc = .exited
  | .swapped, some t => t.pc = .L52
  | .working, some t => t.pc = .L110 ∨ t.pc = .L112 ∨ t.pc = .L56 ∨ (t.pc = .L114 ∧ idle = 0)
  | .slept, some t => t.pc = .L114 ∧ idle ≠ 0
  | .finished, some t => t.pc = .L61
  | .exchanged, some t => t.pc = .L63 ∨ t.pc = .L67 ∨ t.pc = .L46 ∨ t.pc = .L49 ∨ t.pc = .exited
  | .parked, some t => t.pc = .L67 ∨ t.pc = .L46 ∨ t.pc = .L49 ∨ t.pc = .exited
  | _, none => false

/-- The trace of the worker is a sequence of whole cycles followed by the part of a cycle
that leads to the body's program point. -/
def Worker.cycleOk (w : Worker) : Prop :=
  match phaseFrom w.m_idleWaitMs .fresh w.trace with
  | none => False
  | some q => Phase.holdsAt w.m_idleWaitMs q w.m_work = true

instance (w : Worker) : Decidable w.cycleOk := by
  unfold Worker.cycleOk; split <;> infer_instance

/-- Invariant behind `Worker.cycleOk`: the caller creates a thread only when there is none
(lines 41-42) and releases it only when it has exited (line 104). -/
def CycleInv (c : Config) : Prop :=
  c.w.cycleOk ∧ (c.pc = .S41 ∨ c.pc = .S42 → c.w.m_work = none) ∧
  (c.pc = .T104 → ∃ t, c.w.m_work = some t ∧ t.pc = .exited)

/-- Calls of `startedWorking` not yet matched by a call of `doneWorking`: one while the body
is between them, none otherwise. -/
def Phase.pending : Phase → Nat
  | .working => 1
  | .slept => 1
  | _ => 0

/-! ## The request-timeout test (test/net.cpp, lines 148-179) -/

/-- A node identifier, by the value of its hash. -/
abbrev NodeId := Nat

/-- A pending request as the test records it: the node and the time point of recording.
Time points and durations are integer counts of one common unit, the millisecond. -/
abbrev RequestTimeout := NodeId × Int

/-- The two flags the predicate of the test sets. -/
structure Triggered where
  nodeAtriggered : Bool
  nodeBtriggered : Bool
  deriving DecidableEq, Repr

/-- The test of lines 168-171 on one request: `diff = now - t.second; diff < timeout`. -/
def stillValid (timeout now sentAt : Int) : Bool :=
  decide (now - sentAt < timeout)

/-- The predicate passed to `remove_if` (lines 165-174), applied to the request `t` at clock
reading `now`: the updated flags and the returned boolean. -/
def requestTimeoutPred (nodeA nodeB : NodeId) (timeout now : Int) (fl : Triggered)
    (t : RequestTimeout) : Triggered × Bool :=
  let fl₁ := if t.1 = nodeA ∧ stillValid timeout now t.2 then { fl with nodeAtriggered := true }
    else fl
  let fl₂ := if t.1 = nodeB ∧ stillValid timeout now t.2 then { fl₁ with nodeBtriggered := true }
    else fl₁
  (fl₂, decide (t.1 = nodeA ∨ t.1 = nodeB))

/-- `std::list::remove_if` with that predicate: the flags after the pass and the requests
kept. -/
def removeIf (nodeA nodeB : NodeId) (timeout now : Int) :
    Triggered → List RequestTimeout → Triggered × List RequestTimeout
  | fl, [] => (fl, [])
  | fl, t :: ts =>
    let r := requestTimeoutPred nodeA nodeB timeout now fl t
    let rest := removeIf nodeA nodeB timeout now r.1 ts
    if r.2 then rest else (rest.1, t :: rest.2)

/-- The test case `requestTimeout` with exact sleeps: node A is recorded at `t0`, node B at
`t0 + 100`, and the list is checked at `t0 + 100 + 210` with a timeout of 300. -/
def requestTimeout (nodeA nodeB : NodeId) (t0 : Int) : Triggered × List RequestTimeout :=
  removeIf nodeA nodeB 300 (t0 + 100 + 210)
    { nodeAtriggered := false, nodeBtriggered := false } [(nodeA, t0), (nodeB, t0 + 100)]

/-! ## Sequences of completed calls -/

/-- The three operations a caller can run on a worker. -/
inductive Op where
  | startWorking
  | stopWorking
  | terminate
  deriving DecidableEq, Repr

/-- Entry of an operation: the caller has taken `x_work` and is at its first line. -/
def Op.enter : Op → Worker → Config
  | .startWorking, w => dev.startWorking w
  | .stopWorking, w => dev.stopWorking w
  | .terminate, w => dev.terminate w

/-- Turns that suffice for an operation to return on any quiescent worker. -/
def Op.turns : Op → List Tid
  | .startWorking => patStart
  | .stopWorking => patStop
  | .terminate => patTerm

/-- A sequence of calls made one after the other (the calls are serialised by `x_work`), each
with the schedule under which it runs; the body keeps moving during the turns left of a
schedule after the call has returned.  The result is `none` when some call has not returned
by the end of its schedule. -/
def runCalls : List (Op × List Tid) → Worker → Option Worker
  | [], w => some w
  | call :: rest, w =>
    if (run call.2 (call.1.enter w)).pc = .returned then
      runCalls rest (run call.2 (call.1.enter w)).w
    else none

/-- What holds of a worker between calls: it is quiescent, and when it holds no background
context its state is `init` or `Killing`. -/
def Worker.settled (init : WorkerState) (w : Worker) : Prop :=
  w.quiescent ∧ (w.m_work = none → w.m_state = init ∨ w.m_state = Killing)

instance (init : WorkerState) (w : Worker) : Decidable (w.settled init) := by
  unfold Worker.settled; infer_instance

/-- Invariant of `stopWorking` and of `terminate` called on a worker `v` that holds no
background context: the worker is untouched and the caller is at the test of `m_work` or has
returned. -/
def InvNone (v : Worker) (c : Config) : Prop :=
  c.w = v ∧ (c.pc = .P82 ∨ c.pc = .T98 ∨ c.pc = .returned)

/-- Progress measure of `stopWorking` and `terminate` on a worker without context. -/
def rankNone (c : Config) : Nat :=
  match c.pc with
  | .returned => 1
  | _ => 0

/-! ## Schedules: generic facts -/

theorem run_nil (c : Config) : run [] c = c := rfl

theorem run_cons (t : Tid) (s : List Tid) (c : Config) : run (t :: s) c = run s (step c t) := rfl

theorem run_append (s₁ s₂ : List Tid) (c : Config) : run (s₁ ++ s₂) c = run s₂ (run s₁ c) := by
  simp [run, List.foldl_append]

/-- A predicate preserved by every step holds after every schedule. -/
theorem run_invariant {P : Config → Prop} (hstep : ∀ c t, P c → P (step c t)) :
    ∀ (s : List Tid) (c : Config), P c → P (run s c) := by
  intro s
  induction s with
  | nil => intro c h; exact h
  | cons t s ih => intro c h; exact ih _ (hstep c t h)

/-- Progress along a pattern of turns, from rank `k` on: if `rank` never decreases, and at
rank `i` a turn of thread `pat[i]` raises it, then every schedule that has `pat.drop k` as a
sublist leads from rank at least `k` to rank `pat.length`. -/
theorem run_progress_from {P : Config → Prop} (rank : Config → Nat) (pat : List Tid)
    (hstep : ∀ c t, P c → P (step c t))
    (hmono : ∀ c t, P c → rank c ≤ rank (step c t))
    (hadv : ∀ c, P c → rank c < pat.length →
      rank c + 1 ≤ rank (step c (pat.getD (rank c) Tid.caller))) :
    ∀ (s : List Tid) (c : Config) (k : Nat), P c → k ≤ rank c →
      (pat.drop k).Sublist s → pat.length ≤ rank (run s c) := by
  intro s
  induction s with
  | nil =>
    intro c k _ hk hsub
    have hnil : pat.drop k = [] := List.sublist_nil.mp hsub
    have hlen : pat.length ≤ k := List.drop_eq_nil_iff.mp hnil
    exact le_trans hlen hk
  | cons t s ih =>
    intro c k hP hk hsub
    rw [run_cons]
    by_cases hlt : k < pat.length
    · rw [List.drop_eq_getElem_cons hlt] at hsub
      cases hsub with
      | cons _ h =>
        refine ih (step c t) k (hstep c t hP) (le_trans hk (hmono c t hP)) ?_
        rw [List.drop_eq_getElem_cons hlt]
        exact h
      | cons₂ _ h =>
        refine ih (step c pat[k]) (k + 1) (hstep _ _ hP) ?_ h
        rcases Nat.lt_or_ge k (rank c) with hgt | hle
        · exact le_trans hgt (hmono c _ hP)
        · have hkr : rank c = k := le_antisymm hle hk
          have := hadv c hP (by omega)
          rw [hkr, List.getD_eq_getElem _ _ hlt] at this
          exact this
    · have hlen : pat.length ≤ k := Nat.le_of_not_lt hlt
      have h1 := le_trans hk (hmono c t hP)
      refine ih (step c t) k (hstep c t hP) h1 ?_
      rw [List.drop_eq_nil_of_le hlen]
      exact List.nil_sublist _

/-- Progress along a whole pattern of turns. -/
theorem run_progress {P : Config → Prop} (rank : Config → Nat) (pat : List Tid)
    (hstep : ∀ c t, P c → P (step c t))
    (hmono : ∀ c t, P c → rank c ≤ rank (step c t))
    (hadv : ∀ c, P c → rank c < pat.length →
      rank c + 1 ≤ rank (step c (pat.getD (rank c) Tid.caller))) :
    ∀ (s : List Tid) (c : Config), P c → pat.Sublist s → pat.length ≤ rank (run s c) := by
  intro s c hP hsub
  exact run_progress_from rank pat hstep hmono hadv s c 0 hP (Nat.zero_le _) (by simpa using hsub)

/-! ## startWorking -/

theorem invStart_caller (k0 : Option Nat) (n0 a0 a1 : Nat) (c : Config)
    (h : InvStart k0 n0 a0 a1 c) : InvStart k0 n0 a0 a1 (callerStep c) := by
  obtain ⟨⟨idle, st, mw, tr, sp, po⟩, pc⟩ := c
  cases pc <;> simp only [InvStart] at h <;>
  first
  | exact h.elim
  | (rcases mw with _ | t <;> cases st <;> cases k0 <;>
      simp_all [InvStart, callerStep, sameCtx, startCtx,
        compare_exchange_strong, exchange])

theorem invStart_body (k0 : Option Nat) (n0 a0 a1 : Nat) (c : Config)
    (h : InvStart k0 n0 a0 a1 c) : InvStart k0 n0 a0 a1 { c with w := threadBody c.w } := by
  obtain ⟨⟨idle, st, mw, tr, sp, po⟩, pc⟩ := c
  rcases mw with _ | ⟨tid, bpc, ex⟩
  · exact h
  · cases pc <;> simp only [InvStart] at h <;>
    first
    | exact h.elim
    | (cases bpc <;> cases k0 <;>
        simp [sameCtx, startCtx, Thread.running, Thread.parked] at h <;>
        simp only [InvStart, threadBody, compare_exchange_strong, exchange] <;>
        (try split_ifs) <;>
        simp_all [sameCtx, startCtx, Thread.running, Thread.parked, nCasOk])

theorem invStart_step (k0 : Option Nat) (n0 a0 a1 : Nat) (c : Config) (t : Tid)
    (h : InvStart k0 n0 a0 a1 c) : InvStart k0 n0 a0 a1 (step c t) := by
  cases t
  · exact invStart_caller k0 n0 a0 a1 c h
  · exact invStart_body k0 n0 a0 a1 c h

theorem rankStart_mono (k0 : Option Nat) (n0 a0 a1 : Nat) (c : Config) (t : Tid)
    (h : InvStart k0 n0 a0 a1 c) : rankStart c ≤ rankStart (step c t) := by
  obtain ⟨⟨idle, st, mw, tr, sp, po⟩, pc⟩ := c
  cases pc <;> simp only [InvStart] at h <;>
  first
  | exact h.elim
  | (cases t <;> rcases mw with _ | ⟨tid, bpc, ex⟩ <;>
      simp [Thread.running, Thread.parked] at h <;>
      (try cases bpc) <;>
      simp only [step, callerStep, threadBody, compare_exchange_strong, exchange, rankStart] <;>
      (try split_ifs) <;>
      simp_all)

theorem rankStart_adv (k0 : Option Nat) (n0 a0 a1 : Nat) (c : Config)
    (h : InvStart k0 n0 a0 a1 c) (hr : rankStart c < patStart.length) :
    rankStart c + 1 ≤ rankStart (step c (patStart.getD (rankStart c) Tid.caller)) := by
  obtain ⟨⟨idle, st, mw, tr, sp, po⟩, pc⟩ := c
  cases pc <;> simp only [InvStart] at h <;>
  first
  | exact h.elim
  | (rcases mw with _ | ⟨tid, bpc, ex⟩ <;> cases st <;>
      simp [Thread.running, Thread.parked] at h <;>
      (try cases bpc) <;>
      simp [rankStart, patStart] at hr ⊢ <;>
      simp only [step, callerStep, threadBody, compare_exchange_strong, exchange, rankStart] <;>
      (try split_ifs) <;>
      simp_all)

theorem rankStart_returned (c : Config) (h : patStart.length ≤ rankStart c) :
    c.pc = .returned := by
  obtain ⟨⟨idle, st, mw, tr, sp, po⟩, pc⟩ := c
  cases pc <;> simp [rankStart, patStart] at h ⊢
  split_ifs at h
  · omega
  · rcases mw with _ | ⟨tid, bpc, ex⟩
    · simp at h
    · cases bpc <;> simp at h

theorem invStart_init (w : Worker) (hq : w.quiescent) :
    InvStart (w.m_work.map Thread.tid) w.spawned (nCasOk w.trace) (startGoal w)
      (startWorking w) := by
  obtain ⟨idle, st, mw, tr, sp, po⟩ := w
  rcases mw with _ | t <;> cases st <;>
    simp_all [InvStart, startWorking, sameCtx, Worker.quiescent, startGoal]

theorem invStart_post (k0 : Option Nat) (n0 a0 a1 : Nat) (c : Config)
    (h : InvStart k0 n0 a0 a1 c) (hr : c.pc = .returned) :
    c.w.m_work.isSome ∧ c.w.m_state = Started ∧ startCtx k0 n0 c.w ∧ nCasOk c.w.trace = a1 ∧
    ∃ t, c.w.m_work = some t ∧ t.running := by
  obtain ⟨⟨idle, st, mw, tr, sp, po⟩, pc⟩ := c
  subst hr
  rcases mw with _ | t
  · simp [InvStart] at h
  · simp only [InvStart] at h
    obtain ⟨h1, rfl, h3, h4⟩ := h
    exact ⟨rfl, rfl, h1, h4, t, rfl, h3⟩

/-- C1: `startWorking`, called on a quiescent worker, returns only when a background context
exists and the state is `Started`; the context is the one the worker held, or one newly
created thread when it held none; unless the worker was already started, the body made
exactly one successful `Starting` to `Started` transition during the call.  It does return
under every schedule that gives the caller three turns, then the body four, then the caller
one. -/
theorem startWorking_blocks_until_started (w : Worker) (hq : w.quiescent) (s : List Tid) :
    ((run s (startWorking w)).pc = .returned →
      (run s (startWorking w)).w.m_work.isSome ∧
      (run s (startWorking w)).w.m_state = Started ∧
      startCtx (w.m_work.map Thread.tid) w.spawned (run s (startWorking w)).w ∧
      nCasOk (run s (startWorking w)).w.trace = startGoal w) ∧
    (patStart.Sublist s → (run s (startWorking w)).pc = .returned) := by
  have hinv := run_invariant (invStart_step _ _ _ _) s _ (invStart_init w hq)
  constructor
  · intro hr
    have := invStart_post _ _ _ _ _ hinv hr
    exact ⟨this.1, this.2.1, this.2.2.1, this.2.2.2.1⟩
  · intro hsub
    exact rankStart_returned _
      (run_progress rankStart patStart (invStart_step _ _ _ _) (rankStart_mono _ _ _ _)
        (rankStart_adv _ _ _ _) s _ (invStart_init w hq) hsub)

/-- Witness for C1 on a freshly constructed worker under the schedule `patStart`. -/
theorem startWorking_blocks_until_started_witness :
    (Worker.fresh 0 Stopped).quiescent ∧
    (run patStart (startWorking (Worker.fresh 0 Stopped))).pc = .returned ∧
    (run patStart (startWorking (Worker.fresh 0 Stopped))).w.m_state = Started ∧
    (run patStart (startWorking (Worker.fresh 0 Stopped))).w.spawned = 1 :=
  have hq : (Worker.fresh 0 Stopped).quiescent := by decide
  have h := startWorking_blocks_until_started (Worker.fresh 0 Stopped) hq patStart
  have hr := h.2 (List.Sublist.refl _)
  ⟨hq, hr, (h.1 hr).2.1, (h.1 hr).2.2.1.1⟩

/-! ## stopWorking -/

theorem invStop_caller (k0 : Option Nat) (n0 d0 : Nat) (b0 : Bool) (c : Config)
    (h : InvStop k0 n0 d0 b0 c) : InvStop k0 n0 d0 b0 (callerStep c) := by
  obtain ⟨⟨idle, st, mw, tr, sp, po⟩, pc⟩ := c
  rcases mw with _ | t
  · simp [InvStop] at h
  · cases b0 <;> cases pc <;> simp [InvStop, sameCtx] at h <;> cases st <;>
      simp_all [InvStop, callerStep, sameCtx, compare_exchange_strong, exchange]

theorem invStop_body (k0 : Option Nat) (n0 d0 : Nat) (b0 : Bool) (c : Config)
    (h : InvStop k0 n0 d0 b0 c) : InvStop k0 n0 d0 b0 { c with w := threadBody c.w } := by
  obtain ⟨⟨idle, st, mw, tr, sp, po⟩, pc⟩ := c
  rcases mw with _ | ⟨tid, bpc, ex⟩
  · exact h
  · cases b0 <;> cases pc <;> simp [InvStop, sameCtx] at h <;> cases bpc <;>
      simp [Thread.running, Thread.parked] at h <;>
      simp only [InvStop, threadBody, compare_exchange_strong, exchange] <;>
      (try split_ifs) <;>
      simp_all [sameCtx, Thread.running, Thread.parked, nDone]

theorem invStop_step (k0 : Option Nat) (n0 d0 : Nat) (b0 : Bool) (c : Config) (t : Tid)
    (h : InvStop k0 n0 d0 b0 c) : InvStop k0 n0 d0 b0 (step c t) := by
  cases t
  · exact invStop_caller k0 n0 d0 b0 c h
  · exact invStop_body k0 n0 d0 b0 c h

theorem rankStop_mono (k0 : Option Nat) (n0 d0 : Nat) (c : Config) (t : Tid)
    (h : InvStop k0 n0 d0 true c) : rankStop c ≤ rankStop (step c t) := by
  obtain ⟨⟨idle, st, mw, tr, sp, po⟩, pc⟩ := c
  rcases mw with _ | ⟨tid, bpc, ex⟩
  · simp [InvStop] at h
  · cases pc <;> simp [InvStop, sameCtx] at h <;> cases t <;> cases bpc <;>
      simp [Thread.running, Thread.parked] at h <;>
      simp only [step, callerStep, threadBody, compare_exchange_strong, exchange, rankStop] <;>
      (try split_ifs) <;>
      simp_all

theorem rankStop_adv (k0 : Option Nat) (n0 d0 : Nat) (c : Config)
    (h : InvStop k0 n0 d0 true c) (hr : rankStop c < patStop.length) :
    rankStop c + 1 ≤ rankStop (step c (patStop.getD (rankStop c) Tid.caller)) := by
  obtain ⟨⟨idle, st, mw, tr, sp, po⟩, pc⟩ := c
  rcases mw with _ | ⟨tid, bpc, ex⟩
  · simp [InvStop] at h
  · cases pc <;> simp [InvStop, sameCtx] at h <;> cases st <;> cases bpc <;>
      simp [Thread.running, Thread.parked] at h <;>
      simp [rankStop, patStop] at hr ⊢ <;>
      simp only [step, callerStep, threadBody, compare_exchange_strong, exchange, rankStop] <;>
      (try split_ifs) <;>
      simp_all

theorem rankStop_returned (c : Config) (h : patStop.length ≤ rankStop c) :
    c.pc = .returned := by
  obtain ⟨⟨idle, st, mw, tr, sp, po⟩, pc⟩ := c
  cases pc <;> simp [rankStop, patStop] at h ⊢
  split_ifs at h
  · omega
  · rcases mw with _ | ⟨tid, bpc, ex⟩
    · simp at h
    · cases bpc <;> simp at h

theorem rankStopped_mono (k0 : Option Nat) (n0 d0 : Nat) (c : Config) (t : Tid)
    (h : InvStop k0 n0 d0 false c) : rankStopped c ≤ rankStopped (step c t) := by
  obtain ⟨⟨idle, st, mw, tr, sp, po⟩, pc⟩ := c
  rcases mw with _ | ⟨tid, bpc, ex⟩
  · simp [InvStop] at h
  · cases t
    · cases pc <;> simp [InvStop, sameCtx] at h <;>
        simp_all [step, callerStep, rankStopped, compare_exchange_strong]
    · simp [step, rankStopped]

theorem rankStopped_adv (k0 : Option Nat) (n0 d0 : Nat) (c : Config)
    (h : InvStop k0 n0 d0 false c) (hr : rankStopped c < 3) :
    rankStopped c + 1 ≤
      rankStopped (step c ([Tid.caller, Tid.caller, Tid.caller].getD (rankStopped c) Tid.caller)) := by
  obtain ⟨⟨idle, st, mw, tr, sp, po⟩, pc⟩ := c
  rcases mw with _ | ⟨tid, bpc, ex⟩
  · simp [InvStop] at h
  · cases pc <;> simp [InvStop, sameCtx] at h <;>
      simp_all [step, callerStep, rankStopped, compare_exchange_strong]

theorem rankStopped_returned (c : Config) (h : 3 ≤ rankStopped c) : c.pc = .returned := by
  obtain ⟨w, pc⟩ := c
  cases pc <;> simp [rankStopped] at h ⊢

theorem invStop_init (w : Worker) (t0 : Thread) (hw : w.m_work = some t0) (hq : w.quiescent) :
    InvStop (some t0.tid) w.spawned (nDone w.trace) (decide (w.m_state = Started))
      (stopWorking w) := by
  obtain ⟨idle, st, mw, tr, sp, po⟩ := w
  simp only at hw
  subst hw
  cases st <;> simp_all [InvStop, stopWorking, sameCtx, Worker.quiescent]

/-- C2: `stopWorking`, called on a worker that has a background context and is in state
`Started`, stores `Stopping` over `Started` (line 86) and returns only when the state is
`Stopped`, the same body has left `workLoop`, has called `doneWorking` exactly once more and
has exchanged `Stopping` for `Stopped` (line 61); it does return under every schedule that
gives the caller two turns, then the body five, then the caller one.  Called on a worker
whose state is already `Stopped`, it returns with the state still `Stopped`, after three turns
of its own. -/
theorem stopWorking_halts_gracefully (w : Worker) (t0 : Thread) (hw : w.m_work = some t0)
    (hq : w.quiescent) (s : List Tid) :
    (w.m_state = Started →
      (callerStep { w := w, pc := .P86 }).w.m_state = Stopping ∧
      ((run s (stopWorking w)).pc = .returned →
        (run s (stopWorking w)).w.m_state = Stopped ∧
        (run s (stopWorking w)).w.spawned = w.spawned ∧
        nDone (run s (stopWorking w)).w.trace = nDone w.trace + 1 ∧
        ∃ t, (run s (stopWorking w)).w.m_work = some t ∧ t.tid = t0.tid ∧
          (t.pc = .L63 ∨ t.pc = .L67) ∧ t.ex = Stopping) ∧
      (patStop.Sublist s → (run s (stopWorking w)).pc = .returned)) ∧
    (w.m_state = Stopped →
      ((run s (stopWorking w)).pc = .returned → (run s (stopWorking w)).w.m_state = Stopped) ∧
      ([Tid.caller, Tid.caller, Tid.caller].Sublist s →
        (run s (stopWorking w)).pc = .returned)) := by
  have hinit := invStop_init w t0 hw hq
  constructor
  · intro hst
    simp only [hst, decide_True] at hinit
    have hinv := run_invariant (invStop_step _ _ _ _) s _ hinit
    refine ⟨by simp [callerStep, compare_exchange_strong, hst], ?_, ?_⟩
    · intro hr
      generalize run s (stopWorking w) = c at hinv hr
      obtain ⟨⟨idle, st, mw, tr, sp, po⟩, pc⟩ := c
      simp only at hr
      subst hr
      rcases mw with _ | t
      · simp [InvStop] at hinv
      · simp [InvStop, sameCtx] at hinv
        obtain ⟨⟨h1, h2⟩, h3, h4, h5, h6⟩ := hinv
        exact ⟨h3, h1, h6, t, rfl, h2, h4, h5⟩
    · intro hsub
      exact rankStop_returned _
        (run_progress rankStop patStop (invStop_step _ _ _ _) (rankStop_mono _ _ _)
          (rankStop_adv _ _ _) s _ hinit hsub)
  · intro hst
    have hb : decide (w.m_state = Started) = false := by simp [hst]
    rw [hb] at hinit
    have hinv := run_invariant (invStop_step _ _ _ _) s _ hinit
    refine ⟨?_, ?_⟩
    · intro _
      generalize run s (stopWorking w) = c at hinv
      obtain ⟨⟨idle, st, mw, tr, sp, po⟩, pc⟩ := c
      rcases mw with _ | t
      · simp [InvStop] at hinv
      · simp [InvStop] at hinv
        exact hinv.2.2.1
    · intro hsub
      exact rankStopped_returned _
        (run_progress rankStopped [Tid.caller, Tid.caller, Tid.caller] (invStop_step _ _ _ _)
          (rankStopped_mono _ _ _) (rankStopped_adv _ _ _) s _ hinit hsub)

/-- Witness for C2 on the worker `Worker.started` under the schedule `patStop`. -/
theorem stopWorking_halts_gracefully_witness :
    Worker.started.m_work = some { tid := 0, pc := .L112, ex := Starting } ∧
    Worker.started.quiescent ∧ Worker.started.m_state = Started ∧
    (run patStop (stopWorking Worker.started)).pc = .returned ∧
    (run patStop (stopWorking Worker.started)).w.m_state = Stopped ∧
    nDone (run patStop (stopWorking Worker.started)).w.trace = nDone Worker.started.trace + 1 :=
  have hw : Worker.started.m_work = some { tid := 0, pc := .L112, ex := Starting } := by decide
  have hq : Worker.started.quiescent := by decide
  have hs : Worker.started.m_state = Started := by decide
  have h := (stopWorking_halts_gracefully Worker.started _ hw hq patStop).1 hs
  have hr := h.2.2 (List.Sublist.refl _)
  ⟨hw, hq, hs, hr, (h.2.1 hr).1, (h.2.1 hr).2.2.1⟩

/-! ## terminate -/

theorem invTerm_caller (k0 : Option Nat) (n0 : Nat) (c : Config)
    (h : InvTerm k0 n0 c) : InvTerm k0 n0 (callerStep c) := by
  obtain ⟨⟨idle, st, mw, tr, sp, po⟩, pc⟩ := c
  cases pc <;> simp only [InvTerm] at h <;>
  first
  | exact h.elim
  | (rcases mw with _ | ⟨tid, bpc, ex⟩ <;> simp [sameCtx, Worker.quiescent] at h
     simp only [callerStep, exchange]
     (try split_ifs) <;>
      simp_all [InvTerm, sameCtx, Worker.quiescent, Thread.running, Thread.parked] <;>
      (try (cases bpc <;> simp_all)))

theorem invTerm_body (k0 : Option Nat) (n0 : Nat) (c : Config)
    (h : InvTerm k0 n0 c) : InvTerm k0 n0 { c with w := threadBody c.w } := by
  obtain ⟨⟨idle, st, mw, tr, sp, po⟩, pc⟩ := c
  rcases mw with _ | ⟨tid, bpc, ex⟩
  · exact h
  · cases pc <;> simp only [InvTerm] at h <;>
    first
    | exact h.elim
    | (cases bpc <;>
        simp [sameCtx, Worker.quiescent, Thread.running, Thread.parked] at h <;>
        simp only [InvTerm, threadBody, compare_exchange_strong, exchange] <;>
        (try split_ifs) <;>
        simp_all [sameCtx, Worker.quiescent, Thread.running, Thread.parked] <;>
        (try (cases ex <;> simp_all)))

theorem invTerm_step (k0 : Option Nat) (n0 : Nat) (c : Config) (t : Tid)
    (h : InvTerm k0 n0 c) : InvTerm k0 n0 (step c t) := by
  cases t
  · exact invTerm_caller k0 n0 c h
  · exact invTerm_body k0 n0 c h

theorem rankTerm_mono (k0 : Option Nat) (n0 : Nat) (c : Config) (t : Tid)
    (h : InvTerm k0 n0 c) : rankTerm c ≤ rankTerm (step c t) := by
  obtain ⟨⟨idle, st, mw, tr, sp, po⟩, pc⟩ := c
  cases pc <;> simp only [InvTerm] at h <;>
  first
  | exact h.elim
  | (cases t <;> rcases mw with _ | ⟨tid, bpc, ex⟩ <;>
      simp [sameCtx, Worker.quiescent, Thread.running, Thread.parked] at h <;>
      (try cases bpc) <;>
      simp only [step, callerStep, threadBody, compare_exchange_strong, exchange, rankTerm] <;>
      (try split_ifs) <;>
      simp_all)

theorem rankTerm_adv (k0 : Option Nat) (n0 : Nat) (c : Config)
    (h : InvTerm k0 n0 c) (hr : rankTerm c < patTerm.length) :
    rankTerm c + 1 ≤ rankTerm (step c (patTerm.getD (rankTerm c) Tid.caller)) := by
  obtain ⟨⟨idle, st, mw, tr, sp, po⟩, pc⟩ := c
  cases pc <;> simp only [InvTerm] at h <;>
  first
  | exact h.elim
  | (rcases mw with _ | ⟨tid, bpc, ex⟩ <;>
      simp [sameCtx, Worker.quiescent, Thread.running, Thread.parked] at h
     (try cases bpc) <;>
      simp [rankTerm, patTerm] at hr ⊢ <;>
      simp only [step, callerStep, threadBody, compare_exchange_strong, exchange, rankTerm] <;>
      (try split_ifs) <;>
      simp_all)

theorem rankTerm_returned (c : Config) (h : patTerm.length ≤ rankTerm c) :
    c.pc = .returned := by
  obtain ⟨⟨idle, st, mw, tr, sp, po⟩, pc⟩ := c
  cases pc <;> simp [rankTerm, patTerm] at h ⊢
  rcases mw with _ | ⟨tid, bpc, ex⟩
  · simp at h
  · cases bpc <;> simp at h

theorem invTerm_init (w : Worker) (t0 : Thread) (hw : w.m_work = some t0) (hq : w.quiescent) :
    InvTerm (some t0.tid) w.spawned (terminate w) := by
  obtain ⟨idle, st, mw, tr, sp, po⟩ := w
  simp only at hw
  subst hw
  simp_all [InvTerm, terminate, sameCtx]

/-- C3: `terminate`, called on a quiescent worker that has a background context, stores
`Killing` (line 101); the body, which had not exited before the store, has exited when the
join of line 103 is passed; when `terminate` returns the worker holds no background context
and the state is `Killing`.  It does return under every schedule that gives the caller two
turns, then the body eight, then the caller two. -/
theorem terminate_joins_and_releases (w : Worker) (t0 : Thread) (hw : w.m_work = some t0)
    (hq : w.quiescent) (s : List Tid) :
    (callerStep { w := w, pc := .T101 }).w.m_state = Killing ∧
    ((run s (terminate w)).pc = .T98 ∨ (run s (terminate w)).pc = .T101 →
      ∃ t, (run s (terminate w)).w.m_work = some t ∧ t.tid = t0.tid ∧ t.pc ≠ .exited) ∧
    ((run s (terminate w)).pc = .T104 →
      (run s (terminate w)).w.m_state = Killing ∧
      ∃ t, (run s (terminate w)).w.m_work = some t ∧ t.tid = t0.tid ∧ t.pc = .exited) ∧
    ((run s (terminate w)).pc = .returned →
      (run s (terminate w)).w.m_work = none ∧ (run s (terminate w)).w.m_state = Killing ∧
      (run s (terminate w)).w.spawned = w.spawned) ∧
    (patTerm.Sublist s → (run s (terminate w)).pc = .returned) := by
  have hinit := invTerm_init w t0 hw hq
  have hinv := run_invariant (invTerm_step _ _) s _ hinit
  refine ⟨by simp [callerStep, exchange], ?_, ?_, ?_, ?_⟩
  · generalize run s (terminate w) = c at hinv
    obtain ⟨⟨idle, st, mw, tr, sp, po⟩, pc⟩ := c
    rcases mw with _ | ⟨tid, bpc, ex⟩
    · rintro (hr | hr) <;> simp only at hr <;> subst hr <;> simp [InvTerm] at hinv
    · rintro (hr | hr) <;> simp only at hr <;> subst hr <;>
        simp [InvTerm, sameCtx, Worker.quiescent, Thread.running, Thread.parked] at hinv <;>
        refine ⟨_, rfl, hinv.1.2, ?_⟩ <;> rintro h <;> simp only at h <;> subst h <;>
        simp at hinv
  · generalize run s (terminate w) = c at hinv
    obtain ⟨⟨idle, st, mw, tr, sp, po⟩, pc⟩ := c
    intro hr
    simp only at hr
    subst hr
    rcases mw with _ | ⟨tid, bpc, ex⟩
    · simp [InvTerm] at hinv
    · simp [InvTerm, sameCtx] at hinv
      simp [hinv]
  · generalize run s (terminate w) = c at hinv
    obtain ⟨⟨idle, st, mw, tr, sp, po⟩, pc⟩ := c
    intro hr
    simp only at hr
    subst hr
    simp [InvTerm] at hinv
    simp [hinv]
  · intro hsub
    exact rankTerm_returned _
      (run_progress rankTerm patTerm (invTerm_step _ _) (rankTerm_mono _ _) (rankTerm_adv _ _)
        s _ hinit hsub)

/-- Witness for C3 on the worker `Worker.started` under the schedule `patTerm`. -/
theorem terminate_joins_and_releases_witness :
    Worker.started.m_work = some { tid := 0, pc := .L112, ex := Starting } ∧
    Worker.started.quiescent ∧
    (run patTerm (terminate Worker.started)).pc = .returned ∧
    (run patTerm (terminate Worker.started)).w.m_work = none ∧
    (run patTerm (terminate Worker.started)).w.m_state = Killing :=
  have hw : Worker.started.m_work = some { tid := 0, pc := .L112, ex := Starting } := by decide
  have hq : Worker.started.quiescent := by decide
  have h := terminate_joins_and_releases Worker.started _ hw hq patTerm
  have hr := h.2.2.2.2 (List.Sublist.refl _)
  ⟨hw, hq, hr, (h.2.2.2.1 hr).1, (h.2.2.2.1 hr).2.1⟩

/-! ## Operations in sequence -/

theorem start_post (w : Worker) (hq : w.quiescent) (s : List Tid)
    (hr : (run s (startWorking w)).pc = .returned) :
    (run s (startWorking w)).w.m_state = Started ∧
    startCtx (w.m_work.map Thread.tid) w.spawned (run s (startWorking w)).w ∧
    nCasOk (run s (startWorking w)).w.trace = startGoal w ∧
    ∃ t, (run s (startWorking w)).w.m_work = some t ∧ t.running := by
  have h := invStart_post _ _ _ _ _
    (run_invariant (invStart_step _ _ _ _) s _ (invStart_init w hq)) hr
  exact ⟨h.2.1, h.2.2.1, h.2.2.2.1, h.2.2.2.2⟩

theorem start_live (w : Worker) (hq : w.quiescent) (s : List Tid) (hs : patStart.Sublist s) :
    (run s (startWorking w)).pc = .returned :=
  rankStart_returned _
    (run_progress rankStart patStart (invStart_step _ _ _ _) (rankStart_mono _ _ _ _)
      (rankStart_adv _ _ _ _) s _ (invStart_init w hq) hs)

theorem start_quiescent (w : Worker) (hq : w.quiescent) (s : List Tid)
    (hr : (run s (startWorking w)).pc = .returned) :
    (run s (startWorking w)).w.quiescent := by
  obtain ⟨h1, _, _, t, h2, h3⟩ := start_post w hq s hr
  simp [Worker.quiescent, h2, h1, h3]

theorem term_post (w : Worker) (t0 : Thread) (hw : w.m_work = some t0) (hq : w.quiescent)
    (s : List Tid) (hr : (run s (terminate w)).pc = .returned) :
    (run s (terminate w)).w.m_work = none ∧ (run s (terminate w)).w.m_state = Killing ∧
    (run s (terminate w)).w.spawned = w.spawned := by
  have hinv := run_invariant (invTerm_step _ _) s _ (invTerm_init w t0 hw hq)
  generalize run s (terminate w) = c at hinv hr
  obtain ⟨⟨idle, st, mw, tr, sp, po⟩, pc⟩ := c
  simp only at hr
  subst hr
  simp [InvTerm] at hinv
  simp [hinv]

theorem term_live (w : Worker) (t0 : Thread) (hw : w.m_work = some t0) (hq : w.quiescent)
    (s : List Tid) (hs : patTerm.Sublist s) : (run s (terminate w)).pc = .returned :=
  rankTerm_returned _
    (run_progress rankTerm patTerm (invTerm_step _ _) (rankTerm_mono _ _) (rankTerm_adv _ _)
      s _ (invTerm_init w t0 hw hq) hs)

theorem quiescent_of_none (w : Worker) (h : w.m_work = none) : w.quiescent := by
  simp [Worker.quiescent, h]

/-- C4 (as amended): after `terminate` has returned the worker holds no background context
and its state is `Killing`; a subsequent `startWorking` on the same object takes the branch
of line 41, stores `Starting` over `Killing`, creates one new thread and returns only with
that new context and the state `Started`; it does return under every schedule that has
`patStart` as a sublist. -/
theorem startWorking_after_terminate_restarts (w : Worker) (t0 : Thread)
    (hw : w.m_work = some t0) (hq : w.quiescent) (s₁ s₂ : List Tid)
    (h₁ : (run s₁ (terminate w)).pc = .returned) :
    (run s₁ (terminate w)).w.m_work = none ∧
    (run s₁ (terminate w)).w.m_state = Killing ∧
    callerStep (startWorking (run s₁ (terminate w)).w) =
      { w := (run s₁ (terminate w)).w, pc := .S41 } ∧
    (callerStep { w := (run s₁ (terminate w)).w, pc := .S41 }).w.m_state = Starting ∧
    ((run s₂ (startWorking (run s₁ (terminate w)).w)).pc = .returned →
      (run s₂ (startWorking (run s₁ (terminate w)).w)).w.m_state = Started ∧
      (run s₂ (startWorking (run s₁ (terminate w)).w)).w.spawned = w.spawned + 1 ∧
      (run s₂ (startWorking (run s₁ (terminate w)).w)).w.m_work.map Thread.tid =
        some w.spawned) ∧
    (patStart.Sublist s₂ →
      (run s₂ (startWorking (run s₁ (terminate w)).w)).pc = .returned) := by
  obtain ⟨hn, hk, hsp⟩ := term_post w t0 hw hq s₁ h₁
  have hq1 := quiescent_of_none _ hn
  refine ⟨hn, hk, by simp [callerStep, startWorking, hn], by simp [callerStep], ?_, ?_⟩
  · intro hr
    obtain ⟨h1, h2, _, _⟩ := start_post _ hq1 s₂ hr
    rw [hn] at h2
    simp only [Option.map_none', startCtx, hsp] at h2
    exact ⟨h1, h2.1, h2.2⟩
  · exact start_live _ hq1 s₂

/-- Witness for C4 (as amended): `Worker.started` is terminated under `patTerm` and started
again under `patStart`. -/
theorem startWorking_after_terminate_restarts_witness :
    Worker.started.m_work = some { tid := 0, pc := .L112, ex := Starting } ∧
    Worker.started.quiescent ∧
    (run patTerm (terminate Worker.started)).pc = .returned ∧
    (run patStart (startWorking (run patTerm (terminate Worker.started)).w)).pc = .returned ∧
    (run patStart (startWorking (run patTerm (terminate Worker.started)).w)).w.m_state
      = Started :=
  have hw : Worker.started.m_work = some { tid := 0, pc := .L112, ex := Starting } := by decide
  have hq : Worker.started.quiescent := by decide
  have h₁ : (run patTerm (terminate Worker.started)).pc = .returned := by decide
  have h := startWorking_after_terminate_restarts Worker.started _ hw hq patTerm patStart h₁
  have hr := h.2.2.2.2.2 (List.Sublist.refl _)
  ⟨hw, hq, h₁, hr, (h.2.2.2.2.1 hr).1⟩

/-- C4 (counterexample): `Worker.started` is terminated (schedule `patTerm`); `terminate` has
returned, no context is left and the state is `Killing`.  The following `startWorking`
(schedule `patStart`) returns having created a second thread, with the state `Started`. -/
theorem terminate_then_startWorking_counterexample :
    (run patTerm (terminate Worker.started)).pc = .returned ∧
    (run patTerm (terminate Worker.started)).w.m_work = none ∧
    (run patTerm (terminate Worker.started)).w.m_state = Killing ∧
    (run patTerm (terminate Worker.started)).w.spawned = 1 ∧
    (run patStart (startWorking (run patTerm (terminate Worker.started)).w)).pc = .returned ∧
    (run patStart (startWorking (run patTerm (terminate Worker.started)).w)).w.m_work =
      some { tid := 1, pc := .L112, ex := Starting } ∧
    (run patStart (startWorking (run patTerm (terminate Worker.started)).w)).w.spawned = 2 ∧
    (run patStart (startWorking (run patTerm (terminate Worker.started)).w)).w.m_state =
      Started := by
  decide

/-! ## startWorking on a started worker -/

theorem invIdem_caller (w0 : Worker) (c : Config) (h : InvIdem w0 c) :
    (callerStep c).w = c.w ∧ InvIdem w0 (callerStep c) := by
  obtain ⟨⟨idle, st, mw, tr, sp, po⟩, pc⟩ := c
  obtain ⟨hpc, hst, h3, h4, h5, h6, h7, t, ht, h8, h9⟩ := h
  simp only at hpc hst ht
  subst hst ht
  rcases hpc with rfl | rfl | rfl | rfl <;>
    simp [callerStep, compare_exchange_strong, InvIdem] <;>
    exact ⟨h3, h4, h5, h6, h7, h8, h9⟩

theorem invIdem_body (w0 : Worker) (c : Config) (h : InvIdem w0 c) :
    InvIdem w0 { c with w := threadBody c.w } := by
  obtain ⟨⟨idle, st, mw, tr, sp, po⟩, pc⟩ := c
  obtain ⟨hpc, hst, h3, h4, h5, h6, h7, ⟨tid, bpc, ex⟩, ht, h8, h9⟩ := h
  simp only at hpc hst ht h3 h4 h5 h6 h7
  subst hst ht
  refine ⟨hpc, ?_⟩
  cases bpc <;> simp [Thread.running] at h9 <;>
    simp only [threadBody] <;> (try split_ifs) <;>
    simp_all [Thread.running, nDone, nCasOk, due, nStarted]

theorem invIdem_run (w0 : Worker) :
    ∀ (s : List Tid) (c : Config), InvIdem w0 c →
      (run s c).w = threadBody^[s.count Tid.body] c.w ∧ InvIdem w0 (run s c) := by
  intro s
  induction s with
  | nil => intro c h; exact ⟨rfl, h⟩
  | cons t s ih =>
    intro c h
    rw [run_cons]
    cases t with
    | caller =>
      obtain ⟨h1, h2⟩ := invIdem_caller w0 c h
      obtain ⟨h3, h4⟩ := ih _ h2
      refine ⟨?_, h4⟩
      show (run s (callerStep c)).w = _
      rw [h3, h1]
      simp
    | body =>
      obtain ⟨h3, h4⟩ := ih _ (invIdem_body w0 c h)
      refine ⟨?_, h4⟩
      show (run s { c with w := threadBody c.w }).w = _
      rw [h3]
      simp [List.count_cons, Function.iterate_succ_apply]

theorem rankIdem_mono (w0 : Worker) (c : Config) (t : Tid) (h : InvIdem w0 c) :
    rankIdem c ≤ rankIdem (step c t) := by
  obtain ⟨⟨idle, st, mw, tr, sp, po⟩, pc⟩ := c
  obtain ⟨hpc, hst, -, -, -, -, -, th, ht, -, -⟩ := h
  simp only at hpc hst ht
  subst hst ht
  cases t
  · rcases hpc with rfl | rfl | rfl | rfl <;> simp [step, callerStep, rankIdem]
  · simp [step, rankIdem]

theorem rankIdem_adv (w0 : Worker) (c : Config) (h : InvIdem w0 c) (hr : rankIdem c < 3) :
    rankIdem c + 1 ≤
      rankIdem (step c ([Tid.caller, Tid.caller, Tid.caller].getD (rankIdem c) Tid.caller)) := by
  obtain ⟨⟨idle, st, mw, tr, sp, po⟩, pc⟩ := c
  obtain ⟨hpc, hst, -, -, -, -, -, th, ht, -, -⟩ := h
  simp only at hpc hst ht
  subst hst ht
  rcases hpc with rfl | rfl | rfl | rfl <;> simp_all [step, callerStep, rankIdem]

theorem rankIdem_returned (c : Config) (h : 3 ≤ rankIdem c) : c.pc = .returned := by
  obtain ⟨w, pc⟩ := c
  cases pc <;> simp [rankIdem] at h ⊢

theorem invIdem_init (w : Worker) (t0 : Thread) (hw : w.m_work = some t0)
    (hst : w.m_state = Started) (hq : w.quiescent) : InvIdem w (startWorking w) := by
  have hrun : t0.running := by
    simp only [Worker.quiescent, hw, hst] at hq
    rcases hq with h | h
    · exact h.2
    · exact absurd h.1 (by decide)
  exact ⟨Or.inl rfl, hst, rfl, rfl, rfl, rfl, rfl, t0, hw, by simp [hw], hrun⟩

theorem idem_run_worker (w : Worker) (hq : w.quiescent) (hst : w.m_state = Started)
    (hsome : w.m_work.isSome) (s : List Tid) :
    (run s (startWorking w)).w = threadBody^[s.count Tid.body] w := by
  obtain ⟨t0, hw⟩ := Option.isSome_iff_exists.mp hsome
  exact (invIdem_run w s _ (invIdem_init w t0 hw hst hq)).1

/-- C5: `startWorking` on a worker that has a background context and state `Started` has no
effect on the worker: after any schedule the worker is what the body's own turns alone make
of it.  No context is created, the compare-and-swap of line 37 fails and the state stays
`Started`, no `doneWorking` is invoked and no new cycle is begun (the only `startedWorking`
that can run is the one already due), the caller never sleeps and returns after three turns
of its own.  Hence a second `startWorking` after a first one that returned leaves the worker
as the first one left it, up to the body's own progress. -/
theorem startWorking_idempotent (w : Worker) (t0 : Thread) (hw : w.m_work = some t0)
    (hst : w.m_state = Started) (hq : w.quiescent) (s : List Tid) :
    (run s (startWorking w)).w = threadBody^[s.count Tid.body] w ∧
    (s.count Tid.body = 0 → (run s (startWorking w)).w = w) ∧
    (run s (startWorking w)).w.spawned = w.spawned ∧
    (run s (startWorking w)).w.m_work.map Thread.tid = some t0.tid ∧
    compare_exchange_strong (run s (startWorking w)).w.m_state Stopped Starting =
      (Started, Started, false) ∧
    (run s (startWorking w)).w.m_state = Started ∧
    nDone (run s (startWorking w)).w.trace = nDone w.trace ∧
    nCasOk (run s (startWorking w)).w.trace = nCasOk w.trace ∧
    due (run s (startWorking w)).w = due w ∧
    (run s (startWorking w)).w.polls = w.polls ∧
    ([Tid.caller, Tid.caller, Tid.caller].Sublist s → (run s (startWorking w)).pc = .returned) ∧
    (∀ (w₀ : Worker) (s₀ : List Tid), w₀.quiescent →
      (run s₀ (startWorking w₀)).pc = .returned →
      (run s (startWorking (run s₀ (startWorking w₀)).w)).w =
        threadBody^[s.count Tid.body] (run s₀ (startWorking w₀)).w) := by
  have hinit := invIdem_init w t0 hw hst hq
  obtain ⟨hrun, -, h2, h3, h4, h5, h6, h7, t, ht, htid, -⟩ := invIdem_run w s _ hinit
  refine ⟨hrun, ?_, h3, ?_, ?_, h2, h5, h6, h7, h4, ?_, ?_⟩
  · intro h0
    rw [hrun, h0]
    rfl
  · rw [ht, hw] at *
    simpa using htid
  · rw [h2]
    rfl
  · intro hsub
    exact rankIdem_returned _
      (run_progress rankIdem [Tid.caller, Tid.caller, Tid.caller] (fun c t h =>
          (invIdem_run w [t] c h).2) (rankIdem_mono w) (rankIdem_adv w) s _ hinit hsub)
  · intro w₀ s₀ hq₀ hr₀
    obtain ⟨h1, -, -, t1, ht1, -⟩ := start_post w₀ hq₀ s₀ hr₀
    exact idem_run_worker _ (start_quiescent w₀ hq₀ s₀ hr₀) h1 (by simp [ht1]) s

/-- Witness for C5: a second `startWorking` on `Worker.started`, the caller moving alone. -/
theorem startWorking_idempotent_witness :
    Worker.started.m_work = some { tid := 0, pc := .L112, ex := Starting } ∧
    Worker.started.m_state = Started ∧ Worker.started.quiescent ∧
    (run [Tid.caller, Tid.caller, Tid.caller] (startWorking Worker.started)).w =
      Worker.started ∧
    (run [Tid.caller, Tid.caller, Tid.caller] (startWorking Worker.started)).pc = .returned :=
  have hw : Worker.started.m_work = some { tid := 0, pc := .L112, ex := Starting } := by decide
  have hs : Worker.started.m_state = Started := by decide
  have hq : Worker.started.quiescent := by decide
  have h := startWorking_idempotent Worker.started _ hw hs hq [Tid.caller, Tid.caller, Tid.caller]
  ⟨hw, hs, hq, h.2.1 (by decide), h.2.2.2.2.2.2.2.2.2.2.1 (List.Sublist.refl _)⟩

/-! ## stopWorking followed by startWorking -/

theorem due_start_step (k0 : Option Nat) (n0 a0 a1 : Nat) (c : Config) (t : Tid)
    (h : InvStart k0 n0 a0 a1 c) :
    due (step c t).w + nCasOk c.w.trace = due c.w + nCasOk (step c t).w.trace := by
  obtain ⟨⟨idle, st, mw, tr, sp, po⟩, pc⟩ := c
  cases pc <;> simp only [InvStart] at h <;>
  first
  | exact h.elim
  | (cases t <;> rcases mw with _ | ⟨tid, bpc, ex⟩ <;>
      simp [Thread.running, Thread.parked] at h <;>
      (try cases bpc) <;>
      simp only [step, callerStep, threadBody, compare_exchange_strong, exchange] <;>
      (try split_ifs) <;>
      simp_all [due, nStarted, nCasOk] <;>
      omega)

theorem start_due (w : Worker) (hq : w.quiescent) (s : List Tid) :
    due (run s (startWorking w)).w + nCasOk w.trace =
      due w + nCasOk (run s (startWorking w)).w.trace := by
  have key := run_invariant
    (P := fun c => InvStart (w.m_work.map Thread.tid) w.spawned (nCasOk w.trace) (startGoal w) c ∧
      due c.w + nCasOk w.trace = due w + nCasOk c.w.trace)
    (fun c t h => ⟨invStart_step _ _ _ _ c t h.1, by
      have := due_start_step _ _ _ _ c t h.1
      have := h.2
      omega⟩)
    s (startWorking w) ⟨invStart_init w hq, rfl⟩
  exact key.2

theorem stop_post (w : Worker) (t0 : Thread) (hw : w.m_work = some t0) (hq : w.quiescent)
    (hst : w.m_state = Started) (s : List Tid) (hr : (run s (stopWorking w)).pc = .returned) :
    (run s (stopWorking w)).w.m_state = Stopped ∧
    (run s (stopWorking w)).w.spawned = w.spawned ∧
    nDone (run s (stopWorking w)).w.trace = nDone w.trace + 1 ∧
    ∃ t, (run s (stopWorking w)).w.m_work = some t ∧ t.tid = t0.tid ∧
      (t.pc = .L63 ∨ t.pc = .L67) ∧ t.ex = Stopping := by
  have hinit := invStop_init w t0 hw hq
  simp only [hst, decide_True] at hinit
  have hinv := run_invariant (invStop_step _ _ _ _) s _ hinit
  generalize run s (stopWorking w) = c at hinv hr
  obtain ⟨⟨idle, st, mw, tr, sp, po⟩, pc⟩ := c
  simp only at hr
  subst hr
  rcases mw with _ | t
  · simp [InvStop] at hinv
  · simp [InvStop, sameCtx] at hinv
    obtain ⟨⟨h1, h2⟩, h3, h4, h5, h6⟩ := hinv
    exact ⟨h3, h1, h6, t, rfl, h2, h4, h5⟩

theorem stop_live (w : Worker) (t0 : Thread) (hw : w.m_work = some t0) (hq : w.quiescent)
    (hst : w.m_state = Started) (s : List Tid) (hs : patStop.Sublist s) :
    (run s (stopWorking w)).pc = .returned := by
  have hinit := invStop_init w t0 hw hq
  simp only [hst, decide_True] at hinit
  exact rankStop_returned _
    (run_progress rankStop patStop (invStop_step _ _ _ _) (rankStop_mono _ _ _)
      (rankStop_adv _ _ _) s _ hinit hs)

/-- C6 (as amended): `stopWorking` on a started worker leaves the same thread in `m_work`,
neither exited nor released, and creates none; the following `startWorking` creates no
second context, its only write is `Starting` over `Stopped` (line 37), and it returns only
with the state `Started`, after the same body has made one more successful transition
`Starting` to `Started`; that body has then either called `startedWorking` once more or is at
line 52, where its next turn makes that call.  The restart does return under every schedule
that has `patStart` as a sublist. -/
theorem stopWorking_then_startWorking_restarts (w : Worker) (t0 : Thread)
    (hw : w.m_work = some t0) (hst : w.m_state = Started) (hq : w.quiescent)
    (s₁ s₂ : List Tid) (h₁ : (run s₁ (stopWorking w)).pc = .returned) :
    (∃ t, (run s₁ (stopWorking w)).w.m_work = some t ∧ t.tid = t0.tid ∧ t.pc ≠ .exited) ∧
    (run s₁ (stopWorking w)).w.spawned = w.spawned ∧
    (callerStep (callerStep (startWorking (run s₁ (stopWorking w)).w))) =
      { w := { (run s₁ (stopWorking w)).w with m_state := Starting }, pc := .S74 } ∧
    ((run s₂ (startWorking (run s₁ (stopWorking w)).w)).pc = .returned →
      (run s₂ (startWorking (run s₁ (stopWorking w)).w)).w.spawned = w.spawned ∧
      (run s₂ (startWorking (run s₁ (stopWorking w)).w)).w.m_state = Started ∧
      nCasOk (run s₂ (startWorking (run s₁ (stopWorking w)).w)).w.trace =
        nCasOk (run s₁ (stopWorking w)).w.trace + 1 ∧
      ∃ t, (run s₂ (startWorking (run s₁ (stopWorking w)).w)).w.m_work = some t ∧
        t.tid = t0.tid ∧ t.running ∧
        nStarted (run s₂ (startWorking (run s₁ (stopWorking w)).w)).w.trace +
            (if t.pc = .L52 then 1 else 0) =
          nStarted (run s₁ (stopWorking w)).w.trace + 1 ∧
        (t.pc = .L52 →
          nStarted (threadBody (run s₂ (startWorking (run s₁ (stopWorking w)).w)).w).trace =
            nStarted (run s₁ (stopWorking w)).w.trace + 1)) ∧
    (patStart.Sublist s₂ →
      (run s₂ (startWorking (run s₁ (stopWorking w)).w)).pc = .returned) := by
  obtain ⟨hs1, hsp1, -, t1, ht1, htid1, hpc1, hex1⟩ := stop_post w t0 hw hq hst s₁ h₁
  have hq1 : (run s₁ (stopWorking w)).w.quiescent := by
    rcases hpc1 with h | h <;> simp [Worker.quiescent, ht1, hs1, Thread.parked, h, hex1]
  have hgoal : startGoal (run s₁ (stopWorking w)).w =
      nCasOk (run s₁ (stopWorking w)).w.trace + 1 := by
    simp [startGoal, hs1]
  have hdue1 : due (run s₁ (stopWorking w)).w = nStarted (run s₁ (stopWorking w)).w.trace := by
    simp only [due, ht1]
    rcases hpc1 with h | h <;> simp [h]
  refine ⟨⟨t1, ht1, htid1, ?_⟩, hsp1, ?_, ?_, start_live _ hq1 s₂⟩
  · rcases hpc1 with h | h <;> simp [h]
  · simp [callerStep, startWorking, ht1, hs1, compare_exchange_strong]
  · intro hr
    obtain ⟨h1, h2, h3, t, ht, hrun⟩ := start_post _ hq1 s₂ hr
    have hd := start_due _ hq1 s₂
    rw [h3, hgoal, hdue1] at hd
    simp only [startCtx, ht1, Option.map_some', ht] at h2
    have hcount : nStarted (run s₂ (startWorking (run s₁ (stopWorking w)).w)).w.trace +
        (if t.pc = .L52 then 1 else 0) = nStarted (run s₁ (stopWorking w)).w.trace + 1 := by
      simp only [due, ht] at hd
      omega
    refine ⟨h2.1.trans hsp1, h1, h3.trans hgoal, t, ht, ?_, hrun, hcount, ?_⟩
    · have := h2.2
      simp only [Option.some.injEq] at this
      exact this.trans htid1
    · intro h52
      rw [if_pos h52] at hcount
      simp only [threadBody, ht, h52, nStarted, List.count_append] at hcount ⊢
      simpa using hcount

/-- Witness for C6 (as amended): `Worker.started` is stopped under `patStop` and started
again under `patStart`. -/
theorem stopWorking_then_startWorking_restarts_witness :
    Worker.started.m_work = some { tid := 0, pc := .L112, ex := Starting } ∧
    Worker.started.m_state = Started ∧ Worker.started.quiescent ∧
    (run patStop (stopWorking Worker.started)).pc = .returned ∧
    (run patStart (startWorking (run patStop (stopWorking Worker.started)).w)).pc
      = .returned ∧
    (run patStart (startWorking (run patStop (stopWorking Worker.started)).w)).w.m_state
      = Started ∧
    (run patStart (startWorking (run patStop (stopWorking Worker.started)).w)).w.spawned
      = Worker.started.spawned :=
  have hw : Worker.started.m_work = some { tid := 0, pc := .L112, ex := Starting } := by decide
  have hs : Worker.started.m_state = Started := by decide
  have hq : Worker.started.quiescent := by decide
  have h₁ : (run patStop (stopWorking Worker.started)).pc = .returned := by decide
  have h := stopWorking_then_startWorking_restarts Worker.started _ hw hs hq patStop patStart h₁
  have hr := h.2.2.2.2 (List.Sublist.refl _)
  ⟨hw, hs, hq, h₁, hr, (h.2.2.2.1 hr).2.1, (h.2.2.2.1 hr).1⟩

/-- C6 (counterexample): `Worker.stopped` is restarted under the schedule caller, caller,
body, body, body, body, caller.  `startWorking` returns with the state `Started` right after
the body's compare-and-swap of line 49: the body is at line 52 and has not called
`startedWorking` again. -/
theorem restart_returns_before_startedWorking_counterexample :
    Worker.stopped.m_state = Stopped ∧
    Worker.stopped.m_work = some { tid := 0, pc := .L63, ex := Stopping } ∧
    (run [.caller, .caller, .body, .body, .body, .body, .caller]
      (startWorking Worker.stopped)).pc = .returned ∧
    (run [.caller, .caller, .body, .body, .body, .body, .caller]
      (startWorking Worker.stopped)).w.m_state = Started ∧
    (run [.caller, .caller, .body, .body, .body, .body, .caller]
      (startWorking Worker.stopped)).w.m_work = some { tid := 0, pc := .L52, ex := Starting } ∧
    nStarted (run [.caller, .caller, .body, .body, .body, .body, .caller]
      (startWorking Worker.stopped)).w.trace = nStarted Worker.stopped.trace := by
  decide

/-! ## workLoop -/

theorem workLoop_events (idle : Nat) (reads : List WorkerState) :
    (workLoop idle reads).events =
      (List.replicate ((workLoop idle reads).observed.count Started)
        (workIteration idle)).flatten := by
  induction reads with
  | nil => simp [workLoop]
  | cons st reads ih =>
    by_cases h : st = Started
    · subst h
      simp [workLoop, ih, List.replicate_succ]
    · simp [workLoop, h, List.count_cons]

theorem workLoop_nWork (idle : Nat) (reads : List WorkerState) :
    nWork (workLoop idle reads).events = (workLoop idle reads).observed.count Started := by
  induction reads with
  | nil => simp [workLoop, nWork]
  | cons st reads ih =>
    by_cases h : st = Started
    · subst h
      have ih2 : List.count Event.doWork (workLoop idle reads).events =
          (workLoop idle reads).observed.count Started := ih
      simp only [workLoop, nWork, workIteration, if_true, List.count_append, ih2]
      split_ifs <;> simp <;> omega
    · simp [workLoop, h, nWork, List.count_cons]

theorem workLoop_returned (idle : Nat) (reads : List WorkerState) :
    (workLoop idle reads).returned = true ↔ ∃ st ∈ reads, st ≠ Started := by
  induction reads with
  | nil => simp [workLoop]
  | cons st reads ih =>
    by_cases h : st = Started
    · subst h
      simp [workLoop, ih]
    · simp [workLoop, h]

theorem workLoop_last (idle : Nat) (reads : List WorkerState)
    (h : (workLoop idle reads).returned = true) :
    ∃ st, (workLoop idle reads).observed.getLast? = some st ∧ st ≠ Started := by
  induction reads with
  | nil => simp [workLoop] at h
  | cons st reads ih =>
    by_cases hs : st = Started
    · subst hs
      simp only [workLoop, if_true] at h ⊢
      obtain ⟨st, h1, h2⟩ := ih h
      refine ⟨st, ?_, h2⟩
      rw [List.getLast?_cons, h1]
      rfl
    · exact ⟨st, by simp [workLoop, hs], hs⟩

theorem workLoop_observed_initial (idle : Nat) (reads : List WorkerState) :
    (workLoop idle reads).observed <+: reads := by
  induction reads with
  | nil => simp [workLoop]
  | cons st reads ih =>
    by_cases hs : st = Started
    · subst hs
      simpa [workLoop] using ih
    · simp only [workLoop, hs, if_false]
      exact ⟨reads, rfl⟩

theorem threadBody_workLoop_exit (w : Worker) (t : Thread) (hw : w.m_work = some t)
    (hpc : t.pc = .L110) (hst : w.m_state ≠ Started) :
    threadBody w = { w with m_work := some { t with pc := .L56 } } := by
  simp [threadBody, hw, hpc, hst]

theorem threadBody_workLoop_iteration (w : Worker) (t : Thread) (hw : w.m_work = some t)
    (hpc : t.pc = .L110) (hst : w.m_state = Started) :
    threadBody^[3] w = { w with trace := w.trace ++ workIteration w.m_idleWaitMs } := by
  obtain ⟨idle, st, mw, tr, sp, po⟩ := w
  obtain ⟨tid, bpc, ex⟩ := t
  simp only at hw hpc hst
  subst hw hpc hst
  by_cases hi : idle = 0 <;> simp [threadBody, workIteration, hi]

/-- C7: `workLoop` against the successive values `reads` of `m_state` at its loop test.  If
the first value read is not `Started` it returns with no sleep and no `doWork`; if it is
`Started` one iteration runs, which is the idle sleep (only when `m_idleWaitMs` is non-zero)
followed by `doWork` once, and the loop continues.  Overall the events are one iteration per
`Started` value observed, so the number of `doWork` calls is the number of times the test
observed `Started`; `workLoop` returns exactly when some value read is not `Started`, and the
last value it observed is then not `Started`.  The background body's inlined loop (program
points 110, 112, 114) performs the same exit and the same iteration. -/
theorem workLoop_repeats_while_started (idle : Nat) (reads : List WorkerState) :
    (∀ st, st ≠ Started →
      workLoop idle (st :: reads) = { events := [], observed := [st], returned := true }) ∧
    workLoop idle (Started :: reads) =
      { events := workIteration idle ++ (workLoop idle reads).events,
        observed := Started :: (workLoop idle reads).observed,
        returned := (workLoop idle reads).returned } ∧
    workIteration idle =
      (if idle ≠ 0 then [Event.idleSleep idle, Event.doWork] else [Event.doWork]) ∧
    (workLoop idle reads).events =
      (List.replicate ((workLoop idle reads).observed.count Started)
        (workIteration idle)).flatten ∧
    nWork (workLoop idle reads).events = (workLoop idle reads).observed.count Started ∧
    (workLoop idle reads).observed <+: reads ∧
    ((workLoop idle reads).returned = true ↔ ∃ st ∈ reads, st ≠ Started) ∧
    ((workLoop idle reads).returned = true →
      ∃ st, (workLoop idle reads).observed.getLast? = some st ∧ st ≠ Started) ∧
    (∀ (w : Worker) (t : Thread), w.m_work = some t → t.pc = .L110 → w.m_state ≠ Started →
      threadBody w = { w with m_work := some { t with pc := .L56 } }) ∧
    (∀ (w : Worker) (t : Thread), w.m_work = some t → t.pc = .L110 → w.m_state = Started →
      threadBody^[3] w = { w with trace := w.trace ++ workIteration w.m_idleWaitMs }) := by
  refine ⟨?_, ?_, ?_, workLoop_events idle reads, workLoop_nWork idle reads,
    workLoop_observed_initial idle reads, workLoop_returned idle reads,
    workLoop_last idle reads, threadBody_workLoop_exit, threadBody_workLoop_iteration⟩
  · intro st hst
    simp [workLoop, hst]
  · simp [workLoop]
  · by_cases hi : idle = 0 <;> simp [workIteration, hi]

/-- Witness for C7: with an idle wait of 5 ms and the reads `Started`, `Started`, `Stopping`,
`Started`, the loop sleeps and works twice and returns on the third read. -/
theorem workLoop_repeats_while_started_witness :
    workLoop 5 [Started, Started, Stopping, Started] =
      { events := [.idleSleep 5, .doWork, .idleSleep 5, .doWork],
        observed := [Started, Started, Stopping], returned := true } ∧
    nWork (workLoop 5 [Started, Started, Stopping, Started]).events = 2 ∧
    ∃ st, (workLoop 5 [Started, Started, Stopping, Started]).observed.getLast? = some st ∧
      st ≠ Started :=
  have h := workLoop_repeats_while_started 5 [Started, Started, Stopping, Started]
  ⟨by decide, h.2.2.2.2.1.trans (by decide), h.2.2.2.2.2.2.2.1 (by decide)⟩

/-! ## The cycle of the background body -/

theorem phaseFrom_snoc (idle : Nat) (q : Phase) (tr : List Event) (e : Event) :
    phaseFrom idle q (tr ++ [e]) = (phaseFrom idle q tr).bind fun p => Phase.next idle p e := by
  simp [phaseFrom, List.foldl_append]

theorem cycleInv_caller (c : Config) (h : CycleInv c) : CycleInv (callerStep c) := by
  obtain ⟨⟨idle, st, mw, tr, sp, po⟩, pc⟩ := c
  obtain ⟨h1, h2, h3⟩ := h
  simp only [Worker.cycleOk] at h1
  cases hq : phaseFrom idle Phase.fresh tr with
  | none => simp [hq] at h1
  | some q =>
    simp only [hq] at h1
    rcases mw with _ | ⟨tid, bpc, ex⟩ <;> cases q <;> simp [Phase.holdsAt] at h1 <;>
      cases pc <;> simp at h2 h3 <;>
      simp only [callerStep] <;> (try split_ifs) <;>
      simp_all [CycleInv, Worker.cycleOk, Phase.holdsAt]

theorem cycleInv_body (c : Config) (h : CycleInv c) :
    CycleInv { c with w := threadBody c.w } := by
  obtain ⟨⟨idle, st, mw, tr, sp, po⟩, pc⟩ := c
  obtain ⟨h1, h2, h3⟩ := h
  rcases mw with _ | ⟨tid, bpc, ex⟩
  · exact ⟨h1, h2, h3⟩
  · simp only [Worker.cycleOk] at h1
    cases hq : phaseFrom idle Phase.fresh tr with
    | none => simp [hq] at h1
    | some q =>
      simp only [hq] at h1
      simp at h2 h3
      refine ⟨?_, fun hpc => absurd hpc (by simpa using h2), ?_⟩
      · cases q <;> cases bpc <;> simp [Phase.holdsAt] at h1 <;>
          simp only [threadBody, compare_exchange_strong, exchange] <;>
          (try split_ifs) <;>
          simp_all [Worker.cycleOk, Phase.holdsAt, phaseFrom_snoc, Phase.next]
      · intro hpc
        have := h3 hpc
        subst this
        simp [threadBody]

theorem cycleInv_step (c : Config) (t : Tid) (h : CycleInv c) : CycleInv (step c t) := by
  cases t
  · exact cycleInv_caller c h
  · exact cycleInv_body c h

theorem phaseFold_none (idle : Nat) (tr : List Event) :
    tr.foldl (fun o e => o.bind fun p => Phase.next idle p e) none = none := by
  induction tr with
  | nil => rfl
  | cons e tr ih => simpa using ih

theorem phaseFrom_cons (idle : Nat) (q : Phase) (e : Event) (tr : List Event) :
    phaseFrom idle q (e :: tr) = (Phase.next idle q e).bind fun p => phaseFrom idle p tr := by
  cases h : Phase.next idle q e with
  | none => simp [phaseFrom, h, phaseFold_none]
  | some p => simp [phaseFrom, h]

theorem next_balance (idle : Nat) (q p : Phase) (e : Event) (h : Phase.next idle q e = some p) :
    nStarted [e] + q.pending = nDone [e] + p.pending := by
  cases q <;> cases e <;> simp only [Phase.next] at h <;> (try split_ifs at h) <;>
    simp at h <;> subst h <;> simp [nStarted, nDone, Phase.pending]

theorem phase_balance (idle : Nat) :
    ∀ (tr : List Event) (q₀ q : Phase), phaseFrom idle q₀ tr = some q →
      nStarted tr + q₀.pending = nDone tr + q.pending := by
  intro tr
  induction tr with
  | nil =>
    intro q₀ q h
    simp [phaseFrom] at h
    subst h
    simp [nStarted, nDone]
  | cons e tr ih =>
    intro q₀ q h
    rw [phaseFrom_cons] at h
    cases hn : Phase.next idle q₀ e with
    | none => simp [hn] at h
    | some p =>
      simp only [hn, Option.bind_some] at h
      have h1 := next_balance idle q₀ p e hn
      have h2 := ih p q h
      have h3 : nStarted (e :: tr) = nStarted [e] + nStarted tr := by
        simp only [nStarted]
        rw [← List.count_append]
        rfl
      have h4 : nDone (e :: tr) = nDone [e] + nDone tr := by
        simp only [nDone]
        rw [← List.count_append]
        rfl
      omega

theorem cycleOk_balance (w : Worker) (h : w.cycleOk) :
    ∃ q, phaseFrom w.m_idleWaitMs .fresh w.trace = some q ∧
      q.holdsAt w.m_idleWaitMs w.m_work = true ∧
      nStarted w.trace = nDone w.trace + q.pending := by
  simp only [Worker.cycleOk] at h
  cases hq : phaseFrom w.m_idleWaitMs Phase.fresh w.trace with
  | none => simp [hq] at h
  | some q =>
    simp only [hq] at h
    have := phase_balance w.m_idleWaitMs w.trace .fresh q hq
    exact ⟨q, rfl, h, by simpa [Phase.pending] using this⟩

/-- C8: whatever operation the caller runs and however the two threads are scheduled, the
trace of the body stays a sequence of cycles in the order compare-and-swap to `Started`
(line 49), `startedWorking` once, the iterations of the work loop, `doneWorking` once, the
exchange to `Stopped`, then the write back or the parking sleeps, the last cycle being cut at
the body's program point; so the calls of `startedWorking` exceed those of `doneWorking` by
one while the body is in its work loop and equal them otherwise.  A cycle is entered from
line 46 only when the state is not `Killing` (else the body exits), and the body leaves
line 67 only when the state is not `Stopped` (else it sleeps and tests again). -/
theorem body_cycle_order (w : Worker) (hw : w.cycleOk) (c : Config)
    (hc : c = startWorking w ∨ c = stopWorking w ∨ c = terminate w) (s : List Tid) :
    (run s c).w.cycleOk ∧
    (∃ q, phaseFrom (run s c).w.m_idleWaitMs .fresh (run s c).w.trace = some q ∧
      q.holdsAt (run s c).w.m_idleWaitMs (run s c).w.m_work = true ∧
      nStarted (run s c).w.trace = nDone (run s c).w.trace + q.pending) ∧
    (∀ (v : Worker) (t : Thread), v.m_work = some t → t.pc = .L46 →
      threadBody v =
        { v with m_work := some { t with pc := if v.m_state ≠ Killing then .L49 else .exited } }) ∧
    (∀ (v : Worker) (t : Thread), v.m_work = some t → t.pc = .L67 →
      threadBody v =
        if v.m_state = Stopped then { v with trace := v.trace ++ [.parkSleep] }
        else { v with m_work := some { t with pc := .L46 } }) := by
  have hinit : CycleInv c := by
    rcases hc with rfl | rfl | rfl <;> exact ⟨hw, by simp [startWorking, stopWorking, terminate],
      by simp [startWorking, stopWorking, terminate]⟩
  have hinv := run_invariant cycleInv_step s c hinit
  refine ⟨hinv.1, cycleOk_balance _ hinv.1, ?_, ?_⟩
  · intro v t hv hpc
    simp only [threadBody, hv, hpc]
    split_ifs <;> rfl
  · intro v t hv hpc
    simp only [threadBody, hv, hpc]

/-- Witness for C8: a fresh worker is started under `patStart`; the trace is the beginning of
one cycle. -/
theorem body_cycle_order_witness :
    (Worker.fresh 0 Stopped).cycleOk ∧
    (run patStart (startWorking (Worker.fresh 0 Stopped))).w.trace =
      [.casStarted Starting true, .startedWorking] ∧
    (run patStart (startWorking (Worker.fresh 0 Stopped))).w.cycleOk :=
  have hw : (Worker.fresh 0 Stopped).cycleOk := by decide
  ⟨hw, by decide,
    (body_cycle_order (Worker.fresh 0 Stopped) hw _ (Or.inl rfl) patStart).1⟩

/-! ## The exchange to Stopped (lines 61-64) -/

/-- C10: the body at line 61 replaces the state by `Stopped` and keeps the replaced value in
`ex`; after line 63 the state is the replaced value when that was `Killing` or `Starting`, and
`Stopped` when it was `Started`, `Stopping` or `Stopped`.  A body that reaches line 61 with the
state `Killing` ends the cycle with the state `Killing` and leaves its outer loop at line 46;
this also holds under every schedule with the caller of `terminate` waiting at the join, which
then returns once the body has had four turns and the caller two. -/
theorem exchange_keeps_pending_request (w : Worker) (t : Thread) (hw : w.m_work = some t)
    (hpc : t.pc = .L61) (s : List Tid) :
    (threadBody w).m_state = Stopped ∧
    (threadBody w).m_work = some { t with pc := .L63, ex := w.m_state } ∧
    (threadBody (threadBody w)).m_state =
      (if w.m_state = Killing ∨ w.m_state = Starting then w.m_state else Stopped) ∧
    (threadBody (threadBody w)).m_work = some { t with pc := .L67, ex := w.m_state } ∧
    (w.m_state = Killing →
      (threadBody^[4] w).m_state = Killing ∧
      (threadBody^[4] w).m_work = some { t with pc := .exited, ex := Killing } ∧
      ((run s { w := w, pc := .T103 }).pc = .T104 →
        (run s { w := w, pc := .T103 }).w.m_state = Killing ∧
        ∃ u, (run s { w := w, pc := .T103 }).w.m_work = some u ∧ u.pc = .exited) ∧
      ((run s { w := w, pc := .T103 }).pc = .returned →
        (run s { w := w, pc := .T103 }).w.m_state = Killing) ∧
      ([Tid.body, Tid.body, Tid.body, Tid.body, Tid.caller, Tid.caller].Sublist s →
        (run s { w := w, pc := .T103 }).pc = .returned)) := by
  obtain ⟨idle, st, mw, tr, sp, po⟩ := w
  obtain ⟨tid, bpc, ex⟩ := t
  simp only at hw hpc
  subst hw hpc
  refine ⟨by simp [threadBody, exchange], by simp [threadBody, exchange], ?_, ?_, ?_⟩
  · cases st <;> simp [threadBody, exchange]
  · cases st <;> simp [threadBody, exchange]
  · intro hst
    simp only at hst
    subst hst
    have hinit : InvTerm (some tid) sp
        { w := { m_idleWaitMs := idle, m_state := Killing,
                 m_work := some { tid := tid, pc := .L61, ex := ex },
                 trace := tr, spawned := sp, polls := po }, pc := .T103 } := by
      simp [InvTerm, sameCtx]
    have hinv := run_invariant (invTerm_step _ _) s _ hinit
    refine ⟨by simp [threadBody, exchange], by simp [threadBody, exchange], ?_, ?_, ?_⟩
    · intro hr
      generalize run s _ = c at hinv hr
      obtain ⟨⟨idle, st, mw, tr, sp, po⟩, pc⟩ := c
      simp only at hr
      subst hr
      rcases mw with _ | u
      · simp [InvTerm] at hinv
      · simp [InvTerm] at hinv
        simp [hinv]
    · intro hr
      generalize run s _ = c at hinv hr
      obtain ⟨⟨idle, st, mw, tr, sp, po⟩, pc⟩ := c
      simp only at hr
      subst hr
      simp [InvTerm] at hinv
      simp [hinv]
    · intro hsub
      exact rankTerm_returned _
        (run_progress_from rankTerm patTerm (invTerm_step _ _) (rankTerm_mono _ _)
          (rankTerm_adv _ _) s _ 6 hinit (by simp [rankTerm]) (by simpa [patTerm] using hsub))

/-- Witness for C10: a body at line 61 with the state `Killing`, the caller at the join. -/
theorem exchange_keeps_pending_request_witness :
    (threadBody (threadBody
      { m_idleWaitMs := 0, m_state := Killing,
        m_work := some { tid := 0, pc := .L61, ex := Starting },
        trace := [], spawned := 1, polls := 0 })).m_state = Killing ∧
    (run [Tid.body, Tid.body, Tid.body, Tid.body, Tid.caller, Tid.caller]
      { w := { m_idleWaitMs := 0, m_state := Killing,
               m_work := some { tid := 0, pc := .L61, ex := Starting },
               trace := [], spawned := 1, polls := 0 }, pc := .T103 }).pc = .returned :=
  have h := exchange_keeps_pending_request
    { m_idleWaitMs := 0, m_state := Killing,
      m_work := some { tid := 0, pc := .L61, ex := Starting },
      trace := [], spawned := 1, polls := 0 }
    { tid := 0, pc := .L61, ex := Starting } rfl rfl
    [Tid.body, Tid.body, Tid.body, Tid.body, Tid.caller, Tid.caller]
  ⟨h.2.2.1, (h.2.2.2.2 rfl).2.2.2.2 (List.Sublist.refl _)⟩

/-! ## Request timeouts -/

/-- C9: a request recorded at `sentAt` and checked at `now` is still valid exactly when
`now - sentAt < timeout`, and timed out otherwise, in particular when the elapsed time equals
the timeout.  With a timeout of 300, a request recorded at `t0` and checked at `t0 + 310` is
timed out and one recorded at `t0 + 100` is still valid; the test case ends with node A not
triggered, node B triggered and an empty list. -/
theorem requestTimeout_classification (timeout now sentAt t0 : Int) (nodeA nodeB : NodeId)
    (hAB : nodeA ≠ nodeB) :
    (stillValid timeout now sentAt = true ↔ now - sentAt < timeout) ∧
    (stillValid timeout now sentAt = false ↔ timeout ≤ now - sentAt) ∧
    stillValid timeout (sentAt + timeout) sentAt = false ∧
    stillValid 300 (t0 + 310) t0 = false ∧
    stillValid 300 (t0 + 310) (t0 + 100) = true ∧
    requestTimeout nodeA nodeB t0 =
      ({ nodeAtriggered := false, nodeBtriggered := true }, []) := by
  have hBA : nodeB ≠ nodeA := fun h => hAB h.symm
  refine ⟨by simp [stillValid], by simp [stillValid], by simp [stillValid],
    by simp [stillValid], ?_, ?_⟩
  · simp only [stillValid, decide_eq_true_eq]
    omega
  · have h1 : stillValid 300 (t0 + 100 + 210) t0 = false := by
      simp only [stillValid, decide_eq_false_iff_not]
      omega
    have h2 : stillValid 300 (t0 + 100 + 210) (t0 + 100) = true := by
      simp only [stillValid, decide_eq_true_eq]
      omega
    simp [requestTimeout, removeIf, requestTimeoutPred, h1, h2, hAB, hBA]

/-- Witness for C9 with node identifiers 1 and 2 and `t0 = 1000`. -/
theorem requestTimeout_classification_witness :
    (1 : NodeId) ≠ 2 ∧ stillValid 300 300 0 = false ∧ stillValid 300 299 0 = true ∧
    requestTimeout 1 2 1000 = ({ nodeAtriggered := false, nodeBtriggered := true }, []) :=
  have hne : (1 : NodeId) ≠ 2 := by decide
  have h := requestTimeout_classification 300 299 0 1000 1 2 hne
  ⟨hne, h.2.2.1, h.1.mpr (by decide), h.2.2.2.2.2⟩

/-! ## The quiescent-state invariant -/

theorem invNone_step (v : Worker) (hv : v.m_work = none) (c : Config) (t : Tid)
    (h : InvNone v c) : InvNone v (step c t) := by
  obtain ⟨w, pc⟩ := c
  obtain ⟨hw, hpc⟩ := h
  simp only at hw hpc
  subst hw
  cases t
  · rcases hpc with rfl | rfl | rfl <;> simp [step, callerStep, InvNone, hv]
  · refine ⟨?_, hpc⟩
    simp [step, threadBody, hv]

theorem rankNone_mono (v : Worker) (hv : v.m_work = none) (c : Config) (t : Tid)
    (h : InvNone v c) : rankNone c ≤ rankNone (step c t) := by
  obtain ⟨w, pc⟩ := c
  obtain ⟨hw, hpc⟩ := h
  simp only at hw hpc
  subst hw
  cases t
  · rcases hpc with rfl | rfl | rfl <;> simp [step, callerStep, rankNone, hv]
  · simp [step, rankNone]

theorem rankNone_adv (v : Worker) (hv : v.m_work = none) (c : Config)
    (h : InvNone v c) (hr : rankNone c < [Tid.caller].length) :
    rankNone c + 1 ≤ rankNone (step c ([Tid.caller].getD (rankNone c) Tid.caller)) := by
  obtain ⟨w, pc⟩ := c
  obtain ⟨hw, hpc⟩ := h
  simp only at hw hpc
  subst hw
  rcases hpc with rfl | rfl | rfl <;> simp_all [step, callerStep, rankNone]

theorem rankNone_returned (c : Config) (h : 1 ≤ rankNone c) : c.pc = .returned := by
  obtain ⟨w, pc⟩ := c
  cases pc <;> simp [rankNone] at h ⊢

theorem none_unchanged (v : Worker) (hv : v.m_work = none) (s : List Tid) :
    (run s (stopWorking v)).w = v ∧ (run s (terminate v)).w = v :=
  ⟨(run_invariant (invNone_step v hv) s (stopWorking v) ⟨rfl, Or.inl rfl⟩).1,
   (run_invariant (invNone_step v hv) s (terminate v) ⟨rfl, Or.inr (Or.inl rfl)⟩).1⟩

theorem none_live (v : Worker) (hv : v.m_work = none) (s : List Tid)
    (hs : [Tid.caller].Sublist s) :
    (run s (stopWorking v)).pc = .returned ∧ (run s (terminate v)).pc = .returned :=
  ⟨rankNone_returned _
    (run_progress rankNone [Tid.caller] (invNone_step v hv) (rankNone_mono v hv)
      (rankNone_adv v hv) s (stopWorking v) ⟨rfl, Or.inl rfl⟩ hs),
   rankNone_returned _
    (run_progress rankNone [Tid.caller] (invNone_step v hv) (rankNone_mono v hv)
      (rankNone_adv v hv) s (terminate v) ⟨rfl, Or.inr (Or.inl rfl)⟩ hs)⟩

theorem stop_any_post (w : Worker) (t0 : Thread) (hw : w.m_work = some t0) (hq : w.quiescent)
    (s : List Tid) (hr : (run s (stopWorking w)).pc = .returned) :
    (run s (stopWorking w)).w.m_state = Stopped ∧
    ∃ t, (run s (stopWorking w)).w.m_work = some t ∧ t.parked := by
  have hinv := run_invariant (invStop_step _ _ _ _) s _ (invStop_init w t0 hw hq)
  generalize run s (stopWorking w) = c at hinv hr
  generalize decide (w.m_state = Started) = b0 at hinv
  obtain ⟨⟨idle, st, mw, tr, sp, po⟩, pc⟩ := c
  simp only at hr
  subst hr
  rcases mw with _ | t
  · simp [InvStop] at hinv
  · cases b0
    · simp [InvStop] at hinv
      exact ⟨hinv.2.1, t, rfl, hinv.2.2.1⟩
    · simp [InvStop] at hinv
      obtain ⟨-, h3, h4, h5, -⟩ := hinv
      refine ⟨h3, t, rfl, ?_⟩
      rcases h4 with h | h
      · exact Or.inr ⟨h, by simp [h5], by simp [h5]⟩
      · exact Or.inl h

theorem stop_any_live (w : Worker) (hq : w.quiescent) (s : List Tid)
    (hs : patStop.Sublist s) : (run s (stopWorking w)).pc = .returned := by
  cases hw : w.m_work with
  | none =>
    exact (none_live w hw s (List.Sublist.trans (by decide) hs)).1
  | some t0 =>
    by_cases hst : w.m_state = Started
    · exact stop_live w t0 hw hq hst s hs
    · have hinit := invStop_init w t0 hw hq
      have hb : decide (w.m_state = Started) = false := by simp [hst]
      rw [hb] at hinit
      exact rankStopped_returned _
        (run_progress rankStopped [Tid.caller, Tid.caller, Tid.caller] (invStop_step _ _ _ _)
          (rankStopped_mono _ _ _) (rankStopped_adv _ _ _) s _ hinit
          (List.Sublist.trans (by decide) hs))

theorem term_any_live (w : Worker) (hq : w.quiescent) (s : List Tid)
    (hs : patTerm.Sublist s) : (run s (terminate w)).pc = .returned := by
  cases hw : w.m_work with
  | none => exact (none_live w hw s (List.Sublist.trans (by decide) hs)).2
  | some t0 => exact term_live w t0 hw hq s hs

theorem call_live (w : Worker) (hq : w.quiescent) (op : Op) (s : List Tid)
    (hs : op.turns.Sublist s) : (run s (op.enter w)).pc = .returned := by
  cases op
  · exact start_live w hq s hs
  · exact stop_any_live w hq s hs
  · exact term_any_live w hq s hs

theorem call_settled (init : WorkerState) (w : Worker) (h : w.settled init) (op : Op)
    (s : List Tid) (hr : (run s (op.enter w)).pc = .returned) :
    (run s (op.enter w)).w.settled init := by
  obtain ⟨hq, hn⟩ := h
  cases op
  · have hq' := start_quiescent w hq s hr
    obtain ⟨-, -, -, t, ht, -⟩ := start_post w hq s hr
    exact ⟨hq', fun h0 => by simp [Op.enter, ht] at h0⟩
  · cases hw : w.m_work with
    | none =>
      have hu := (none_unchanged w hw s).1
      simp only [Op.enter, hu]
      exact ⟨hq, hn⟩
    | some t0 =>
      obtain ⟨h1, t, ht, hp⟩ := stop_any_post w t0 hw hq s hr
      refine ⟨?_, fun h0 => by simp [Op.enter, ht] at h0⟩
      simp only [Op.enter, Worker.quiescent, ht, h1]
      exact Or.inr ⟨trivial, hp⟩
  · cases hw : w.m_work with
    | none =>
      have hu := (none_unchanged w hw s).2
      simp only [Op.enter, hu]
      exact ⟨hq, hn⟩
    | some t0 =>
      obtain ⟨h1, h2, -⟩ := term_post w t0 hw hq s hr
      exact ⟨quiescent_of_none _ h1, fun _ => Or.inr h2⟩

theorem runCalls_settled (init : WorkerState) :
    ∀ (calls : List (Op × List Tid)) (w w' : Worker), w.settled init →
      runCalls calls w = some w' → w'.settled init := by
  intro calls
  induction calls with
  | nil =>
    intro w w' h hrun
    simp only [runCalls, Option.some.injEq] at hrun
    exact hrun ▸ h
  | cons call rest ih =>
    intro w w' h hrun
    simp only [runCalls] at hrun
    split_ifs at hrun with hr
    exact ih _ _ (call_settled init w h call.1 call.2 hr) hrun

theorem runCalls_live (init : WorkerState) :
    ∀ (calls : List (Op × List Tid)) (w : Worker), w.settled init →
      (∀ call ∈ calls, call.1.turns.Sublist call.2) → ∃ w', runCalls calls w = some w' := by
  intro calls
  induction calls with
  | nil => intro w _ _; exact ⟨w, rfl⟩
  | cons call rest ih =>
    intro w h hall
    have hr := call_live w h.1 call.1 call.2 (hall call (List.mem_cons_self _ _))
    simp only [runCalls, hr, if_true]
    exact ih _ (call_settled init w h call.1 call.2 hr)
      (fun c hc => hall c (List.mem_cons_of_mem _ hc))

/-- C11: from a worker that holds no background context, after every sequence of calls of
`startWorking`, `stopWorking` and `terminate` that have each returned, under whatever
schedules, the worker is quiescent: if it holds a background context the state is `Started`
or `Stopped`, and if it holds none the state is the initial one or `Killing`.  Every such
sequence does complete when each schedule gives the turns `Op.turns` of its operation.
`stopWorking` and `terminate` on a worker without context leave the worker as it is and
return at the caller's first turn. -/
theorem quiescent_state_invariant (w₀ : Worker) (h₀ : w₀.m_work = none)
    (calls : List (Op × List Tid)) :
    (∀ w, runCalls calls w₀ = some w →
      (w.m_work.isSome → w.m_state = Started ∨ w.m_state = Stopped) ∧
      (w.m_work = none → w.m_state = w₀.m_state ∨ w.m_state = Killing) ∧
      w.quiescent) ∧
    ((∀ call ∈ calls, call.1.turns.Sublist call.2) → ∃ w, runCalls calls w₀ = some w) ∧
    (∀ (v : Worker) (s : List Tid), v.m_work = none →
      (run s (stopWorking v)).w = v ∧ (run s (terminate v)).w = v ∧
      ([Tid.caller].Sublist s →
        (run s (stopWorking v)).pc = .returned ∧ (run s (terminate v)).pc = .returned)) := by
  have hset : w₀.settled w₀.m_state := ⟨quiescent_of_none w₀ h₀, fun _ => Or.inl rfl⟩
  refine ⟨?_, runCalls_live w₀.m_state calls w₀ hset, ?_⟩
  · intro w hrun
    obtain ⟨hq, hn⟩ := runCalls_settled w₀.m_state calls w₀ w hset hrun
    refine ⟨?_, hn, hq⟩
    intro hsome
    obtain ⟨t, ht⟩ := Option.isSome_iff_exists.mp hsome
    simp only [Worker.quiescent, ht] at hq
    rcases hq with h | h
    · exact Or.inl h.1
    · exact Or.inr h.1
  · intro v s hv
    exact ⟨(none_unchanged v hv s).1, (none_unchanged v hv s).2, none_live v hv s⟩

/-- Witness for C11: on a fresh worker, `stopWorking` (no context), `startWorking`,
`stopWorking`, `startWorking`, `terminate`, `terminate` (no context) all return and leave no
context and the state `Killing`. -/
theorem quiescent_state_invariant_witness :
    (Worker.fresh 0 Starting).m_work = none ∧
    (∃ w, runCalls
      [(.stopWorking, patStop), (.startWorking, patStart), (.stopWorking, patStop),
        (.startWorking, patStart), (.terminate, patTerm), (.terminate, patTerm)]
      (Worker.fresh 0 Starting) = some w ∧ w.quiescent) ∧
    (runCalls
      [(.stopWorking, patStop), (.startWorking, patStart), (.stopWorking, patStop),
        (.startWorking, patStart), (.terminate, patTerm), (.terminate, patTerm)]
      (Worker.fresh 0 Starting)).map (fun w => (w.m_work, w.m_state)) = some (none, Killing) ∧
    (run [.body, .caller, .body] (stopWorking (Worker.fresh 0 Starting))).w =
      Worker.fresh 0 Starting :=
  have h := quiescent_state_invariant (Worker.fresh 0 Starting) rfl
    [(.stopWorking, patStop), (.startWorking, patStart), (.stopWorking, patStop),
      (.startWorking, patStart), (.terminate, patTerm), (.terminate, patTerm)]
  have hlive := h.2.1 (by decide)
  ⟨rfl, hlive.elim fun w hw => ⟨w, hw, (h.1 w hw).2.2⟩, by decide,
    (h.2.2 (Worker.fresh 0 Starting) [.body, .caller, .body] rfl).1⟩

end dev
